import Mathlib

/-!
Verification of the DLFUCache repository (DLFUCache.py, ADLFUCache.py,
ARCCache.py, PQueue.py, PIDController.py).

The Python code is shallowly embedded: Python floats are modelled as exact
rationals (the claims checked here do not depend on IEEE-754 rounding), with
the special values `inf` and `nan` — which the code uses for the decay
constant `T` and the multiplier `M` — modelled by the three-valued type
`Flt`.  Python dicts/OrderedDicts become association lists in insertion
order, and the two priority-queue classes (`PQueueHeapq`, `PQueueLRU`)
become a tagged variant over a list: the binary heap in array layout, and
the doubly-linked queue as a plain list (head = oldest).  Operations that
can raise (`KeyError`/`Miss`, `ZeroDivisionError`) return `Option`/`Except`
at the points where a claim depends on the error; internal helpers that the
code only ever calls on guarded arguments are total with junk defaults, and
the theorems carry the corresponding well-formedness hypotheses.
-/

namespace DLFUSpec

/-- A Python float as used for the decay constant `T` and the multiplier
`M`: a finite value (modelled exactly as a rational), `inf`, or `nan`. -/
inductive Flt where
  | fin (q : ℚ)
  | inf
  | nan
  deriving DecidableEq, Repr

namespace Flt

/-- Python truthiness of a float: `0.0` is falsy; everything else — including
`inf` and `nan` — is truthy.  This is the test `if self.T:` in the source. -/
def truthy : Flt → Bool
  | fin q => q != 0
  | inf => true
  | nan => true

/-- Extract the rational of a finite value (junk `0` for `inf`/`nan`; every
use in the model is guarded so that the argument is finite). -/
def q : Flt → ℚ
  | fin x => x
  | inf => 0
  | nan => 0

/-- The predicate `1 ≤ x` on the modelled floats (`nan` compares false). -/
def oneLe : Flt → Prop
  | fin x => 1 ≤ x
  | inf => True
  | nan => False

end Flt

section PQueue

variable {K : Type} [DecidableEq K] [Inhabited K]

/-- Score of the entry at position `i` (junk `0` out of range; all uses in
the heap routines are guarded by the index comparisons of the source). -/
def scoreAt (l : List (ℚ × K)) (i : ℕ) : ℚ :=
  ((l[i]?).map Prod.fst).getD 0

/-- Swap the entries at positions `i` and `j` (no-op if either is out of
range, which never happens at the guarded call sites). -/
def hswap (l : List (ℚ × K)) (i j : ℕ) : List (ℚ × K) :=
  match l[i]?, l[j]? with
  | some a, some b => (l.set i b).set j a
  | _, _ => l

/-- `PQueue._shiftup`: repeatedly swap the entry at `pos` with its parent
while it is strictly smaller than the parent.  `fuel` bounds the recursion;
`pos + 1` always suffices because the position strictly decreases. -/
def siftupF : ℕ → List (ℚ × K) → ℕ → List (ℚ × K)
  | 0, l, _ => l
  | _ + 1, l, 0 => l
  | fuel + 1, l, pos + 1 =>
    let pp := pos / 2
    if scoreAt l (pos + 1) < scoreAt l pp then siftupF fuel (hswap l (pos + 1) pp) pp
    else l

/-- `PQueue._shiftup` with enough fuel. -/
def siftup (l : List (ℚ × K)) (pos : ℕ) : List (ℚ × K) :=
  siftupF (pos + 1) l pos

/-- `PQueue._shiftdn`: repeatedly swap the entry at `pos` with its strictly
smaller child (the right child is preferred exactly when the left child's
score is strictly bigger, as in the source).  `fuel` bounds the recursion;
the list length always suffices because the position strictly increases and
stays below the length. -/
def siftdnF : ℕ → List (ℚ × K) → ℕ → List (ℚ × K)
  | 0, l, _ => l
  | fuel + 1, l, pos =>
    if 2 * pos + 2 < l.length then
      let c := if scoreAt l (2 * pos + 2) < scoreAt l (2 * pos + 1) then 2 * pos + 2
               else 2 * pos + 1
      if scoreAt l c < scoreAt l pos then siftdnF fuel (hswap l pos c) c else l
    else if 2 * pos + 1 < l.length then
      if scoreAt l (2 * pos + 1) < scoreAt l pos then
        siftdnF fuel (hswap l pos (2 * pos + 1)) (2 * pos + 1)
      else l
    else l

/-- `PQueue._shiftdn` with enough fuel. -/
def siftdn (l : List (ℚ × K)) (pos : ℕ) : List (ℚ × K) :=
  siftdnF l.length l pos

/-- Position and score of the first entry with the given key; this plays the
role of the key→entry index dict of `PQueueVect`. -/
def findEntry : List (ℚ × K) → K → Option (ℕ × ℚ)
  | [], _ => none
  | e :: rest, k =>
    if e.2 = k then some (0, e.1)
    else (findEntry rest k).map (fun iv => (iv.1 + 1, iv.2))

/-- `PQueueHeapq._push`: append the new entry at the end and sift it up. -/
def heapPush (l : List (ℚ × K)) (v : ℚ) (k : K) : List (ℚ × K) :=
  siftup (l ++ [(v, k)]) l.length

/-- `PQueueHeapq._pull` of the entry at position `pos`: pop the last entry,
and unless it was the pulled one, put it at `pos` and sift it into place
(down when the removed score was smaller, up otherwise). -/
def heapPullAt (l : List (ℚ × K)) (pos : ℕ) : List (ℚ × K) :=
  let l' := l.dropLast
  if pos < l'.length then
    let last := (l.getLast?).getD (0, default)
    let removed := scoreAt l pos
    let l2 := l'.set pos last
    if removed < last.1 then siftdn l2 pos else siftup l2 pos
  else l'

/-- `PQueueHeapq._swap` of the entry at position `pos`: overwrite it in
place and sift it down when the score grew strictly, up otherwise. -/
def heapSetAt (l : List (ℚ × K)) (pos : ℕ) (v : ℚ) (k : K) : List (ℚ × K) :=
  let old := scoreAt l pos
  let l2 := l.set pos (v, k)
  if old < v then siftdn l2 pos else siftup l2 pos

/-- `CDList.remove` of the first entry with the given key. -/
def removeEntry : List (ℚ × K) → K → List (ℚ × K)
  | [], _ => []
  | e :: rest, k => if e.2 = k then rest else e :: removeEntry rest k

/-- Which `PQueue` class the cache instantiated: `PQueueHeapq` for the
LFU/DLFU regimes, `PQueueLRU` for `T == 0`. -/
inductive PQKind where
  | heapq
  | lruq
  deriving DecidableEq, Repr

/-- The priority-queue state: the tagged variant of `PQueueHeapq` (a binary
min-heap in array layout, entries `(score, key)`, the per-entry heap index
being the list position) and `PQueueLRU` (queue order, head = oldest). -/
structure PQ (K : Type) where
  kind : PQKind
  q : List (ℚ × K)
  deriving DecidableEq, Repr

/-- `len(q)`. -/
def PQ.len (p : PQ K) : ℕ :=
  p.q.length

/-- The keys currently in the queue, in internal order. -/
def PQ.keys (p : PQ K) : List K :=
  p.q.map Prod.snd

/-- `q[key]`: the stored score (junk `0` when absent; Python raises). -/
def PQ.get (p : PQ K) (k : K) : ℚ :=
  ((findEntry p.q k).map Prod.snd).getD 0

/-- `q.peekitem()[1]`: the score at the front — heap root, or LRU head
(junk `0` on an empty queue, where Python raises `IndexError`). -/
def PQ.peekScore (p : PQ K) : ℚ :=
  ((p.q.head?).map Prod.fst).getD 0

/-- `q[key] = value`: update in place (and re-sift / move to the tail) when
the key is present, insert otherwise. -/
def PQ.setitem (p : PQ K) (k : K) (v : ℚ) : PQ K :=
  match p.kind with
  | .heapq =>
    match findEntry p.q k with
    | some iv => ⟨p.kind, heapSetAt p.q iv.1 v k⟩
    | none => ⟨p.kind, heapPush p.q v k⟩
  | .lruq =>
    match findEntry p.q k with
    | some _ => ⟨p.kind, removeEntry p.q k ++ [(v, k)]⟩
    | none => ⟨p.kind, p.q ++ [(v, k)]⟩

/-- `q.popitem(key)`: remove the entry with the given key and return its
score (no-op with junk score when absent, where Python raises `KeyError`;
every cache call site is membership-guarded). -/
def PQ.popitem (p : PQ K) (k : K) : PQ K × ℚ :=
  match findEntry p.q k with
  | some iv =>
    match p.kind with
    | .heapq => (⟨p.kind, heapPullAt p.q iv.1⟩, iv.2)
    | .lruq => (⟨p.kind, removeEntry p.q k⟩, iv.2)
  | none => (p, 0)

/-- `q.swapitem(key, value)`: replace the front entry (heap root / LRU head)
by the new entry and return the old `(key, score)` pair (junk on an empty
queue, where Python raises `IndexError`; call sites are fullness-guarded). -/
def PQ.swapitem (p : PQ K) (k : K) (v : ℚ) : PQ K × K × ℚ :=
  match p.q with
  | [] => (p, default, 0)
  | e :: rest =>
    match p.kind with
    | .heapq => (⟨p.kind, heapSetAt p.q 0 v k⟩, e.2, e.1)
    | .lruq => (⟨p.kind, rest ++ [(v, k)]⟩, e.2, e.1)

/-- `q.scale(mult)`: multiply every stored score. -/
def PQ.scale (p : PQ K) (m : ℚ) : PQ K :=
  ⟨p.kind, p.q.map (fun e => (e.1 * m, e.2))⟩

end PQueue

section DictModel

variable {K V : Type} [DecidableEq K]

/-- Python dict lookup `d[k]` as an `Option` (dicts have unique keys; the
model reads the first binding). -/
def lookup : List (K × V) → K → Option V
  | [], _ => none
  | e :: rest, k => if e.1 = k then some e.2 else lookup rest k

/-- Python dict `d[k] = v`: update the binding in place when present
(keeping insertion order), append otherwise. -/
def dataSet : List (K × V) → K → V → List (K × V)
  | [], k, v => [(k, v)]
  | e :: rest, k, v => if e.1 = k then (e.1, v) :: rest else e :: dataSet rest k v

/-- Python dict `d.pop(k)` / `del d[k]`: drop the binding (no-op when absent,
where Python raises; cache call sites are guarded by the queue index). -/
def dataPop : List (K × V) → K → List (K × V)
  | [], _ => []
  | e :: rest, k => if e.1 = k then rest else e :: dataPop rest k

end DictModel

section DLFU

variable {K V : Type} [DecidableEq K] [Inhabited K] [DecidableEq V]

/-- The state of a `DLFUCache` (DLFUCache.py): sizes, decay parameters, the
value store, the two priority queues, the moment accumulators, and the
statistics counters. -/
structure DLFUCache (K V : Type) where
  size : ℤ
  msize : ℤ
  T : Flt
  M : Flt
  data : List (K × V)
  cqueue : PQ K
  mqueue : PQ K
  C : ℚ
  count_sum : ℚ
  mcount_sum : ℚ
  count_sum2 : ℚ
  mcount_sum2 : ℚ
  get_count : ℕ
  set_count : ℕ
  del_count : ℕ
  hit_count : ℕ
  mhit_count : ℕ
  deriving DecidableEq, Repr

namespace DLFUCache

/-- `DLFUCache._cqueue_min`: the cqueue minimum used by the admission tests
(`peekitem()[1]` when the cqueue is full, `0.0` otherwise). -/
def cqueue_min (s : DLFUCache K V) : ℚ :=
  if s.size = (s.cqueue.len : ℤ) then s.cqueue.peekScore else 0

/-- The comparison `self._mqueue_min <= p` of `_setmqueue`.  `_mqueue_min`
is `nan` when `msize` is falsy (`0`), and a `nan` comparison is false. -/
def mqueueMinLe (s : DLFUCache K V) (p : ℚ) : Bool :=
  if s.msize = 0 then false
  else if s.msize = (s.mqueue.len : ℤ) then decide (s.mqueue.peekScore ≤ p)
  else decide ((0 : ℚ) ≤ p)

/-- `DLFUCache._inccqueue`: add the per-access increment (pre-decayed to `0`
in the LRU regime) to the key's cqueue score and update the moments. -/
def inccqueue (s : DLFUCache K V) (k : K) : DLFUCache K V :=
  let p := if s.T.truthy then s.C else 0
  let old := s.cqueue.get k
  { s with cqueue := s.cqueue.setitem k (old + p),
           count_sum := s.count_sum + p,
           count_sum2 := s.count_sum2 + ((old + p) ^ 2 - old ^ 2) }

/-- `DLFUCache._incmqueue`: the same for the mqueue. -/
def incmqueue (s : DLFUCache K V) (k : K) : DLFUCache K V :=
  let p := if s.T.truthy then s.C else 0
  let old := s.mqueue.get k
  { s with mqueue := s.mqueue.setitem k (old + p),
           mcount_sum := s.mcount_sum + p,
           mcount_sum2 := s.mcount_sum2 + ((old + p) ^ 2 - old ^ 2) }

/-- `DLFUCache._setmqueue`: insert a new mqueue entry when there is space,
replace the mqueue minimum when the score is at least as big, and drop the
entry otherwise. -/
def setmqueue (s : DLFUCache K V) (k : K) (p0 : ℚ) : DLFUCache K V :=
  let p := if s.T.truthy then p0 else 0
  if (s.mqueue.len : ℤ) < s.msize then
    { s with mqueue := s.mqueue.setitem k p,
             mcount_sum := s.mcount_sum + p,
             mcount_sum2 := s.mcount_sum2 + p * p }
  else if s.mqueueMinLe p then
    let r := s.mqueue.swapitem k p
    { s with mqueue := r.1,
             mcount_sum := s.mcount_sum + (p - r.2.2),
             mcount_sum2 := s.mcount_sum2 + (p * p - r.2.2 * r.2.2) }
  else s

/-- `DLFUCache._setcqueue`: insert a new cqueue entry when there is space;
otherwise, when the score is at least the cqueue minimum, replace the
minimum, cascade it into the mqueue and drop its value. -/
def setcqueue (s : DLFUCache K V) (k : K) (p0 : ℚ) : DLFUCache K V :=
  let p := if s.T.truthy then p0 else 0
  if (s.cqueue.len : ℤ) < s.size then
    { s with cqueue := s.cqueue.setitem k p,
             count_sum := s.count_sum + p,
             count_sum2 := s.count_sum2 + p * p }
  else if decide (s.cqueue_min ≤ p) then
    let r := s.cqueue.swapitem k p
    let s1 := setmqueue { s with cqueue := r.1 } r.2.1 r.2.2
    { s1 with count_sum := s1.count_sum + (p - r.2.2),
              count_sum2 := s1.count_sum2 + (p * p - r.2.2 * r.2.2),
              data := dataPop s1.data r.2.1 }
  else s

/-- `DLFUCache._movcqueue`: unconditionally pop the key out of the cqueue
and offer it to the mqueue. -/
def movcqueue (s : DLFUCache K V) (k : K) : DLFUCache K V :=
  let r := s.cqueue.popitem k
  let s1 := { s with cqueue := r.1,
                     count_sum := s.count_sum - r.2,
                     count_sum2 := s.count_sum2 - r.2 * r.2 }
  setmqueue s1 k r.2

/-- `DLFUCache._movmqueue`: when the key's mqueue score reaches the cqueue
minimum, pop it out of the mqueue and offer it to the cqueue. -/
def movmqueue (s : DLFUCache K V) (k : K) : DLFUCache K V :=
  if decide (s.cqueue_min ≤ s.mqueue.get k) then
    let r := s.mqueue.popitem k
    let s1 := { s with mqueue := r.1,
                       mcount_sum := s.mcount_sum - r.2,
                       mcount_sum2 := s.mcount_sum2 - r.2 * r.2 }
    setcqueue s1 k r.2
  else s

/-- `DLFUCache._decayall`: grow `C` by `M` (skipped in the LRU regime), and
re-normalise everything back to `C = 1` when `C` reaches `1.0e100`. -/
def decayall (s : DLFUCache K V) : DLFUCache K V :=
  if s.T.truthy then
    let C1 := s.C * s.M.q
    if (10 : ℚ) ^ 100 ≤ C1 then
      let d := 1 / C1
      { s with cqueue := s.cqueue.scale d,
               mqueue := s.mqueue.scale d,
               count_sum := s.count_sum * d,
               mcount_sum := s.mcount_sum * d,
               count_sum2 := s.count_sum2 * (d * d),
               mcount_sum2 := s.mcount_sum2 * (d * d),
               C := 1 }
    else { s with C := C1 }
  else s

/-- `DLFUCache.__getitem__`: bump `get_count`, update the hit key's score
(or offer a missed key to the mqueue), apply the decay step, and return the
stored value — `none` models the `KeyError` (*Miss*) raised when the key has
no stored value (the state updates still happen before the raise). -/
def getitem (s : DLFUCache K V) (k : K) : DLFUCache K V × Option V :=
  let s1 := { s with get_count := s.get_count + 1 }
  let s2 :=
    if k ∈ s1.cqueue.keys then
      inccqueue { s1 with hit_count := s1.hit_count + 1 } k
    else if k ∈ s1.mqueue.keys then
      incmqueue { s1 with mhit_count := s1.mhit_count + 1 } k
    else
      setmqueue s1 k s1.C
  let s3 := decayall s2
  (s3, lookup s3.data k)

/-- `DLFUCache.__setitem__`: bump `set_count`, promote a shadow key (or
offer a fresh key to the cqueue), and store the value iff the key ended up
in the cqueue. -/
def setitem (s : DLFUCache K V) (k : K) (v : V) : DLFUCache K V :=
  let s1 := { s with set_count := s.set_count + 1 }
  let s2 :=
    if k ∈ s1.mqueue.keys then movmqueue s1 k
    else if k ∉ s1.cqueue.keys then setcqueue s1 k s1.C
    else s1
  if k ∈ s2.cqueue.keys then { s2 with data := dataSet s2.data k v } else s2

/-- `DLFUCache.__delitem__`: move the key from the cqueue to the mqueue and
drop its value.  `none` models the `KeyError` (*Miss*) raised by
`popitem(key)` when the key is not in the cqueue (nothing is mutated before
that raise). -/
def delitem (s : DLFUCache K V) (k : K) : Option (DLFUCache K V) :=
  if k ∈ s.cqueue.keys then
    let s1 := movcqueue s k
    some { s1 with data := dataPop s1.data k }
  else none

/-- `collections.abc.Mapping.__contains__` (inherited by `DLFUCache`):
CPython implements `key in cache` as `self[key]` under a `KeyError` handler,
so it performs a full `__getitem__` — state mutations included — and
returns whether a value came back. -/
def containsOp (s : DLFUCache K V) (k : K) : DLFUCache K V × Bool :=
  let r := getitem s k
  (r.1, r.2.isSome)

/-- `DLFUCache.getcount`: the externally observed access count. -/
def getcount (s : DLFUCache K V) (k : K) : ℚ :=
  if k ∈ s.cqueue.keys then s.cqueue.get k / s.C
  else if k ∈ s.mqueue.keys then s.mqueue.get k / s.C
  else 0

/-- `DLFUCache.reset_stats`. -/
def reset_stats (s : DLFUCache K V) : DLFUCache K V :=
  { s with get_count := 0, set_count := 0, del_count := 0,
           hit_count := 0, mhit_count := 0 }

/-- `DLFUCache.clear`: empty the store and both queues, reset the scale
factor and the moments, and reset the statistics. -/
def clear (s : DLFUCache K V) : DLFUCache K V :=
  reset_stats
    { s with data := [], cqueue := ⟨s.cqueue.kind, []⟩, mqueue := ⟨s.mqueue.kind, []⟩,
             C := 1, count_sum := 0, mcount_sum := 0, count_sum2 := 0, mcount_sum2 := 0 }

/-- The state built by `DLFUCache.__init__` (regime selection and `clear`),
ignoring the one failure case — see `init` for the raising behaviour.  For a
finite non-zero `T` the multiplier is `(T*size + 1)/(T*size)` (with Lean's
total `ℚ` division standing in at the division-by-zero arguments that
`init` reports as errors); `T == 0.0` selects `PQueueLRU` with `M = inf`,
`T == inf` selects `M = 1.0`, and a `nan` `T` falls into the generic branch
where every float product is `nan`. -/
def mk0 (size msize : ℤ) (T : Flt) : DLFUCache K V :=
  let MK : Flt × PQKind :=
    match T with
    | .fin q =>
      if q = 0 then (.inf, .lruq)
      else (.fin ((q * size + 1) / (q * size)), .heapq)
    | .inf => (.fin 1, .heapq)
    | .nan => (.nan, .heapq)
  clear
    { size := size, msize := msize, T := T, M := MK.1,
      data := [], cqueue := ⟨MK.2, []⟩, mqueue := ⟨MK.2, []⟩,
      C := 1, count_sum := 0, mcount_sum := 0, count_sum2 := 0, mcount_sum2 := 0,
      get_count := 0, set_count := 0, del_count := 0, hit_count := 0, mhit_count := 0 }

/-- The only error `DLFUCache.__init__` can raise: the float division
`(T*size + 1.0) / (T*size)` with a zero divisor.  (`__init__` performs no
argument validation.) -/
inductive InitError where
  | zeroDivision
  deriving DecidableEq, Repr

/-- `DLFUCache.__init__ (size, msize, T)`: raises `ZeroDivisionError` exactly
when `T` is finite and non-zero and `T*size == 0.0` (a `nan` or infinite `T`
never divides by zero, and neither do the `T == 0.0` / `T == inf` regimes). -/
def init (size msize : ℤ) (T : Flt) : Except InitError (DLFUCache K V) :=
  match T with
  | .fin q =>
    if q ≠ 0 ∧ q * (size : ℚ) = 0 then .error .zeroDivision
    else .ok (mk0 size msize (.fin q))
  | _ => .ok (mk0 size msize T)

end DLFUCache

/-- One cache operation of the common mapping contract. -/
inductive Op (K V : Type) where
  | get (k : K)
  | set (k : K) (v : V)
  | del (k : K)
  | clear
  deriving DecidableEq, Repr

/-- Apply one operation to a `DLFUCache`.  A `get` keeps its state updates
even when it raises *Miss*; a `del` of an absent key raises before mutating
anything, so the state is unchanged. -/
def DLFUCache.step (s : DLFUCache K V) : Op K V → DLFUCache K V
  | .get k => (s.getitem k).1
  | .set k v => s.setitem k v
  | .del k => (s.delitem k).getD s
  | .clear => s.clear

/-- Run a sequence of operations. -/
def DLFUCache.run (s : DLFUCache K V) (ops : List (Op K V)) : DLFUCache K V :=
  ops.foldl DLFUCache.step s

end DLFU

section PIDModel

/-- `PIDController.limit`: `min(max(minValue, value), maxValue)`. -/
def limit (value minValue maxValue : ℚ) : ℚ :=
  min (max minValue value) maxValue

/-- The state of a `PIDController` (PIDController.py): the five gains and
the four state variables.  The class attributes are `outputMin = -1`,
`outputMax = 1`, `integMin = -3`, `integMax = 3`. -/
structure PIDController where
  Kp : ℚ
  Ki : ℚ
  Kd : ℚ
  Ld : ℚ
  Le : ℚ
  error : ℚ
  integ : ℚ
  deriv : ℚ
  output : ℚ
  deriving DecidableEq, Repr

namespace PIDController

/-- `PIDController.__init__`: zero state, integrator preloaded to the middle
of the output range (`0`). -/
def mk0 (Kp Ki Kd Ld Le : ℚ) : PIDController :=
  { Kp := Kp, Ki := Ki, Kd := Kd, Ld := Ld, Le := Le,
    error := 0, integ := 0, deriv := 0, output := 0 }

/-- `PIDController.StandardForm` with the default `Ld = Td/8`, `Le = Ld/8`. -/
def StandardForm (Kp Ti Td : ℚ) : PIDController :=
  mk0 Kp (1 / Ti) Td (Td / 8) (Td / 8 / 8)

/-- `PIDController.ZiglerNichols` (spelled as in the source). -/
def ZiglerNichols (Ku Tu : ℚ) : PIDController :=
  StandardForm (6 / 10 * Ku) (Tu / 2) (Tu / 8)

/-- `PIDController.update`: scale and low-pass the error, accumulate the
clamped trapezoidal integral, low-pass the derivative, and clamp the sum to
the output range. -/
def update (c : PIDController) (error0 dt : ℚ) : PIDController × ℚ :=
  let e1 := c.Kp * error0
  let e := if c.Le ≠ 0 then (dt * e1 + c.Le * c.error) / (dt + c.Le) else e1
  let integ := limit (c.Ki * dt * (e + c.error) / 2 + c.integ) (-3) 3
  let deriv := (c.Kd * (e - c.error) + c.Ld * c.deriv) / (dt + c.Ld)
  let output := limit (e + integ + deriv) (-1) 1
  ({ c with error := e, integ := integ, deriv := deriv, output := output }, output)

end PIDController

/-- `LowPassFilter.update` on the stored output `y` with time constant `T`:
`(value*dt + y*T)/(T + dt)`. -/
def lpfUpdate (T y value dt : ℚ) : ℚ :=
  (value * dt + y * T) / (T + dt)

end PIDModel

section ADLFU

variable {K V : Type} [DecidableEq K] [Inhabited K] [DecidableEq V]

/-- The state of an `ADLFUCache` (ADLFUCache.py): the underlying
`DLFUCache` plus the two low-pass filters (time constant and current
output), the PID controller, and `dt`. -/
structure ADLFUCache (K V : Type) where
  base : DLFUCache K V
  slowT : ℚ
  slow : ℚ
  fastT : ℚ
  fast : ℚ
  pid : PIDController
  dt : ℚ
  deriving DecidableEq, Repr

namespace ADLFUCache

/-- `ADLFUCache.__init__`: the base cache with `T = 8.0`, low-pass filters
with time constants `2*size` and `size/2`, and a Ziegler-Nichols-tuned PID
controller with `Ku = 8.0`, `Tu = size/2`. -/
def mk0 (size msize : ℤ) : ADLFUCache K V :=
  { base := DLFUCache.mk0 size msize (.fin 8),
    slowT := 2 * size, slow := 0,
    fastT := (size : ℚ) / 2, fast := 0,
    pid := PIDController.ZiglerNichols 8 ((size : ℚ) / 2),
    dt := 0 }

/-- `ADLFUCache._setT`: rescale `C` by `T_old / T_new` and rebuild `M`.
The base `T` is always finite here (it starts at `8.0` and `_setT` only
ever stores finite values), so reading it through `Flt.q` is exact. -/
def setT (a : ADLFUCache K V) (Tn : ℚ) : ADLFUCache K V :=
  let b := a.base
  { a with base := { b with C := b.C * (b.T.q / Tn),
                            T := .fin Tn,
                            M := .fin ((Tn * b.size + 1) / (Tn * b.size)) } }

/-- `ADLFUCache.__getitem__`: drive the PID controller from the low-pass
filtered access count, retune `T`, then run the base `__getitem__`.  The
method body assigns the base result to `ret` but has no `return` statement,
so on a hit CPython returns `None`; the result is therefore
`some Option.none` on a hit and `none` for the *Miss* raise. -/
def getitem (a : ADLFUCache K V) (k : K) : ADLFUCache K V × Option (Option V) :=
  let a1 := { a with dt := 1 }
  let count := DLFUCache.getcount a1.base k / a1.base.T.q
  let slow := lpfUpdate a1.slowT a1.slow count a1.dt
  let fast := lpfUpdate a1.fastT a1.fast count a1.dt
  let a2 := { a1 with slow := slow, fast := fast }
  let error := fast - slow
  let r := a2.pid.update error a2.dt
  let a3 := { a2 with pid := r.1 }
  let Tn := 2 * (11 / 10 + r.2) / (11 / 10 - r.2)
  let a4 := a3.setT Tn
  let g := a4.base.getitem k
  ({ a4 with base := g.1 }, g.2.map (fun _ => none))

/-- Apply one operation to an `ADLFUCache`; `set`, `del` and `clear` are
inherited from `DLFUCache` and leave the controller state alone. -/
def step (a : ADLFUCache K V) : Op K V → ADLFUCache K V
  | .get k => (a.getitem k).1
  | .set k v => { a with base := a.base.setitem k v }
  | .del k => { a with base := (a.base.delitem k).getD a.base }
  | .clear => { a with base := a.base.clear }

/-- Run a sequence of operations. -/
def run (a : ADLFUCache K V) (ops : List (Op K V)) : ADLFUCache K V :=
  ops.foldl step a

end ADLFUCache

end ADLFU

section ARC

variable {K V : Type} [DecidableEq K] [DecidableEq V]

/-- The state of an `ARCCache` (ARCCache.py): the four ordered lists
(insertion order, head = oldest; `b1`/`b2` carry no values), the learned
target `p`, and the statistics counters. -/
structure ARCCache (K V : Type) where
  size : ℤ
  p : ℤ
  t1 : List (K × V)
  t2 : List (K × V)
  b1 : List K
  b2 : List K
  get_count : ℕ
  set_count : ℕ
  del_count : ℕ
  hit_count : ℕ
  mhit_count : ℕ
  deriving DecidableEq, Repr

namespace ARCCache

/-- `ARCCache.__init__(size)`. -/
def mk0 (size : ℤ) : ARCCache K V :=
  { size := size, p := 0, t1 := [], t2 := [], b1 := [], b2 := [],
    get_count := 0, set_count := 0, del_count := 0, hit_count := 0, mhit_count := 0 }

/-- `OrderedDict.__setitem__` with value `None`: keep the position when the
key is present, append otherwise. -/
def odSetNone [DecidableEq K] (l : List K) (k : K) : List K :=
  if k ∈ l then l else l ++ [k]

/-- Remove the first binding of a key from an ordered dict
(`OrderedDict.pop(key)`; call sites are membership-guarded). -/
def odPop : List (K × V) → K → List (K × V)
  | [], _ => []
  | e :: rest, k => if e.1 = k then rest else e :: odPop rest k

/-- `OrderedDict.__setitem__`: update in place when present, append
otherwise. -/
def odSet : List (K × V) → K → V → List (K × V)
  | [], k, v => [(k, v)]
  | e :: rest, k, v => if e.1 = k then (e.1, v) :: rest else e :: odSet rest k v

/-- `ARCCache._replace`: evict the oldest entry of `t1` into `b1` — when
`t1` is longer than `p`, or exactly `p` (non-empty) with the key in `b2`,
or `t2` is empty — and the oldest entry of `t2` into `b2` otherwise.
Nothing happens while `t1`+`t2` is not full (possible after deletes). -/
def replace (s : ARCCache K V) (k : K) : ARCCache K V :=
  if (s.t1.length + s.t2.length : ℤ) < s.size then s
  else if (s.p < (s.t1.length : ℤ)) ∨
          (0 < s.t1.length ∧ (s.t1.length : ℤ) = s.p ∧ k ∈ s.b2) ∨
          s.t2 = [] then
    match s.t1 with
    | [] => s
    | e :: rest => { s with t1 := rest, b1 := odSetNone s.b1 e.1 }
  else
    match s.t2 with
    | [] => s
    | e :: rest => { s with t2 := rest, b2 := odSetNone s.b2 e.1 }

/-- `ARCCache.__getitem__`: bump `get_count`; on a hit in `t1` or `t2` bump
`hit_count` and move the entry to the end of `t2`; `none` models the
`KeyError` (*Miss*) raised by `t2.pop` on a miss (only `get_count` has been
bumped at that point). -/
def getitem (s : ARCCache K V) (k : K) : ARCCache K V × Option V :=
  let s1 := { s with get_count := s.get_count + 1 }
  match lookup s1.t1 k with
  | some v =>
    let s2 := { s1 with t1 := odPop s1.t1 k, hit_count := s1.hit_count + 1 }
    ({ s2 with t2 := odSet s2.t2 k v }, some v)
  | none =>
    match lookup s1.t2 k with
    | some v =>
      let s2 := { s1 with t2 := odPop s1.t2 k, hit_count := s1.hit_count + 1 }
      ({ s2 with t2 := odSet s2.t2 k v }, some v)
    | none => (s1, none)

/-- `ARCCache.__setitem__`: update a `t1`/`t2` entry in place; on a ghost
hit in `b1`/`b2` bump `mhit_count`, adapt `p`, replace, and move the key to
the end of `t2`; otherwise replace, trim the ghost lists and insert into
`t1`. -/
def setitem (s : ARCCache K V) (k : K) (v : V) : ARCCache K V :=
  let s1 := { s with set_count := s.set_count + 1 }
  if (lookup s1.t1 k).isSome then { s1 with t1 := odSet s1.t1 k v }
  else if (lookup s1.t2 k).isSome then { s1 with t2 := odSet s1.t2 k v }
  else if k ∈ s1.b1 then
    let s2 := { s1 with mhit_count := s1.mhit_count + 1,
                        p := min s1.size (s1.p + max ((s1.b2.length / s1.b1.length : ℕ) : ℤ) 1) }
    let s3 := replace s2 k
    let s4 := { s3 with b1 := s3.b1.erase k }
    { s4 with t2 := odSet s4.t2 k v }
  else if k ∈ s1.b2 then
    let s2 := { s1 with mhit_count := s1.mhit_count + 1,
                        p := max 0 (s1.p - max ((s1.b1.length / s1.b2.length : ℕ) : ℤ) 1) }
    let s3 := replace s2 k
    let s4 := { s3 with b2 := s3.b2.erase k }
    { s4 with t2 := odSet s4.t2 k v }
  else
    let s2 := replace s1 k
    let s3 :=
      if (s2.t1.length + s2.b1.length : ℤ) = s2.size then { s2 with b1 := s2.b1.tail }
      else if (s2.b1.length + s2.t1.length + s2.t2.length + s2.b2.length : ℤ) = 2 * s2.size then
        { s2 with b2 := s2.b2.tail }
      else s2
    { s3 with t1 := s3.t1 ++ [(k, v)] }

/-- `ARCCache.__delitem__`: move the entry from `t1` to `b1`, or from `t2`
to `b2`; `none` models the `KeyError` raised by `t2.pop` on an absent key
(the state is unchanged at that point). -/
def delitem (s : ARCCache K V) (k : K) : Option (ARCCache K V) :=
  if (lookup s.t1 k).isSome then
    some { s with t1 := odPop s.t1 k, b1 := odSetNone s.b1 k }
  else if (lookup s.t2 k).isSome then
    some { s with t2 := odPop s.t2 k, b2 := odSetNone s.b2 k }
  else none

/-- `ARCCache.clear`. -/
def clear (s : ARCCache K V) : ARCCache K V :=
  { s with p := 0, t1 := [], t2 := [], b1 := [], b2 := [],
           get_count := 0, set_count := 0, del_count := 0,
           hit_count := 0, mhit_count := 0 }

/-- Apply one operation to an `ARCCache`. -/
def step (s : ARCCache K V) : Op K V → ARCCache K V
  | .get k => (s.getitem k).1
  | .set k v => s.setitem k v
  | .del k => (s.delitem k).getD s
  | .clear => s.clear

/-- Run a sequence of operations. -/
def run (s : ARCCache K V) (ops : List (Op K V)) : ARCCache K V :=
  ops.foldl step s

end ARCCache

end ARC

/-! ### Helper lemmas about the heap and queue primitives -/

section PQLemmas

open List

variable {K : Type} [DecidableEq K] [Inhabited K]

theorem cons_set_perm {α : Type} :
    ∀ (xs : List α) (j : ℕ) (hj : j < xs.length) (x : α),
      xs.get ⟨j, hj⟩ :: xs.set j x ~ x :: xs := by
  intro xs
  induction xs with
  | nil => intro j hj x; simp at hj
  | cons a rest ih =>
    intro j hj x
    match j with
    | 0 => exact List.Perm.swap x a rest
    | j + 1 =>
      have hj2 : j < rest.length := by simpa using hj
      calc rest.get ⟨j, hj2⟩ :: a :: rest.set j x
          ~ a :: rest.get ⟨j, hj2⟩ :: rest.set j x := List.Perm.swap _ _ _
        _ ~ a :: x :: rest := (ih j hj2 x).cons a
        _ ~ x :: a :: rest := List.Perm.swap _ _ _

theorem cons_eraseIdx_perm {α : Type} :
    ∀ (xs : List α) (j : ℕ) (hj : j < xs.length),
      xs.get ⟨j, hj⟩ :: xs.eraseIdx j ~ xs := by
  intro xs
  induction xs with
  | nil => intro j hj; simp at hj
  | cons a rest ih =>
    intro j hj
    match j with
    | 0 => simp
    | j + 1 =>
      have hj2 : j < rest.length := by simpa using hj
      calc rest.get ⟨j, hj2⟩ :: a :: rest.eraseIdx j
          ~ a :: rest.get ⟨j, hj2⟩ :: rest.eraseIdx j := List.Perm.swap _ _ _
        _ ~ a :: rest := (ih j hj2).cons a

theorem set_eraseIdx_perm {α : Type} (xs : List α) (j : ℕ) (hj : j < xs.length) (x : α) :
    xs.set j x ~ x :: xs.eraseIdx j := by
  have h1 := cons_set_perm xs j hj x
  have h2 := ((cons_eraseIdx_perm xs j hj).symm.cons x).trans (List.Perm.swap _ _ _)
  exact (h1.trans h2).cons_inv

theorem hswap_perm (l : List (ℚ × K)) (i j : ℕ) : hswap l i j ~ l := by
  unfold hswap
  split
  · rename_i a b hi hj
    obtain ⟨hi2, hia⟩ := List.getElem?_eq_some_iff.1 hi
    obtain ⟨hj2, hjb⟩ := List.getElem?_eq_some_iff.1 hj
    by_cases hij : i = j
    · subst hij
      rw [List.set_set]
      have hab : a = b := by rw [← hia, ← hjb]
      subst hab
      have h1 : l.set i a ~ a :: l.eraseIdx i := set_eraseIdx_perm l i hi2 a
      have h2 : l.get ⟨i, hi2⟩ :: l.eraseIdx i ~ l := cons_eraseIdx_perm l i hi2
      rw [List.get_eq_getElem, hia] at h2
      exact h1.trans h2
    · have hjlen : j < (l.set i b).length := by simpa using hj2
      have h1 := cons_set_perm (l.set i b) j hjlen a
      have hLj : (l.set i b).get ⟨j, hjlen⟩ = b := by
        rw [List.get_eq_getElem, List.getElem_set, if_neg hij]
        exact hjb
      rw [hLj] at h1
      have h2 := cons_set_perm l i hi2 b
      rw [List.get_eq_getElem, hia] at h2
      exact (h1.trans h2).cons_inv
  · exact List.Perm.refl l

theorem siftupF_perm (fuel : ℕ) :
    ∀ (l : List (ℚ × K)) (pos : ℕ), siftupF fuel l pos ~ l := by
  induction fuel with
  | zero => intro l pos; simp [siftupF]
  | succ n ih =>
    intro l pos
    match pos with
    | 0 => simp [siftupF]
    | pos + 1 =>
      simp only [siftupF]
      split
      · exact (ih _ _).trans (hswap_perm _ _ _)
      · exact List.Perm.refl l

theorem siftdnF_perm (fuel : ℕ) :
    ∀ (l : List (ℚ × K)) (pos : ℕ), siftdnF fuel l pos ~ l := by
  induction fuel with
  | zero => intro l pos; simp [siftdnF]
  | succ n ih =>
    intro l pos
    simp only [siftdnF]
    repeat' split
    all_goals
      first
        | exact (ih _ _).trans (hswap_perm _ _ _)
        | exact List.Perm.refl l

theorem siftup_perm (l : List (ℚ × K)) (pos : ℕ) : siftup l pos ~ l :=
  siftupF_perm _ l pos

theorem siftdn_perm (l : List (ℚ × K)) (pos : ℕ) : siftdn l pos ~ l :=
  siftdnF_perm _ l pos

theorem heapPush_perm (l : List (ℚ × K)) (v : ℚ) (k : K) :
    heapPush l v k ~ (v, k) :: l := by
  unfold heapPush
  exact (siftup_perm _ _).trans (List.perm_append_singleton _ _)

theorem heapSetAt_perm (l : List (ℚ × K)) (pos : ℕ) (hp : pos < l.length) (v : ℚ) (k : K) :
    heapSetAt l pos v k ~ (v, k) :: l.eraseIdx pos := by
  have hset := set_eraseIdx_perm l pos hp (v, k)
  simp only [heapSetAt]
  split
  · exact (siftdn_perm _ _).trans hset
  · exact (siftup_perm _ _).trans hset

theorem heapPullAt_perm (l : List (ℚ × K)) (pos : ℕ) (hp : pos < l.length) :
    heapPullAt l pos ~ l.eraseIdx pos := by
  have hne : l ≠ [] := by intro h; subst h; simp at hp
  have hlast : l.getLast? = some (l.getLast hne) := List.getLast?_eq_getLast l hne
  have hdec : l.dropLast ++ [l.getLast hne] = l := List.dropLast_concat_getLast hne
  simp only [heapPullAt]
  split
  · rename_i hlt
    have hperm1 : l.dropLast.set pos ((l.getLast?).getD (0, default)) ~
        ((l.getLast?).getD (0, default)) :: l.dropLast.eraseIdx pos :=
      set_eraseIdx_perm _ pos hlt _
    have herase : l.eraseIdx pos = l.dropLast.eraseIdx pos ++ [l.getLast hne] := by
      conv =>
        lhs
        rw [← hdec]
      rw [List.eraseIdx_append_of_lt_length hlt]
    have hperm2 : ((l.getLast?).getD (0, default)) :: l.dropLast.eraseIdx pos ~ l.eraseIdx pos := by
      rw [herase, hlast]
      exact (List.perm_append_singleton _ _).symm
    have hmain := hperm1.trans hperm2
    split
    · exact (siftdn_perm _ _).trans hmain
    · exact (siftup_perm _ _).trans hmain
  · rename_i hge
    have hlen : l.dropLast.length = l.length - 1 := List.length_dropLast l
    have hpos : pos = l.length - 1 := by omega
    subst hpos
    have herase : l.eraseIdx (l.length - 1) = l.dropLast := by
      have h0 : l.length - 1 - l.dropLast.length = 0 := by omega
      calc l.eraseIdx (l.length - 1)
          = (l.dropLast ++ [l.getLast hne]).eraseIdx (l.length - 1) := by rw [hdec]
        _ = l.dropLast ++ ([l.getLast hne].eraseIdx (l.length - 1 - l.dropLast.length)) :=
            List.eraseIdx_append_of_length_le (by omega) _
        _ = l.dropLast := by rw [h0]; simp
    rw [herase]

theorem map_eraseIdx {α β : Type} (f : α → β) :
    ∀ (l : List α) (i : ℕ), (l.eraseIdx i).map f = (l.map f).eraseIdx i := by
  intro l
  induction l with
  | nil => intro i; simp
  | cons a rest ih =>
    intro i
    match i with
    | 0 => simp
    | i + 1 => simp [ih]
theorem findEntry_some :
    ∀ {l : List (ℚ × K)} {k : K} {iv : ℕ × ℚ},
      findEntry l k = some iv → ∃ hi : iv.1 < l.length, l.get ⟨iv.1, hi⟩ = (iv.2, k) := by
  intro l
  induction l with
  | nil => intro k iv h; simp [findEntry] at h
  | cons e rest ih =>
    intro k iv h
    by_cases he : e.2 = k
    · simp only [findEntry, if_pos he, Option.some.injEq] at h
      subst h
      refine ⟨by simp, ?_⟩
      simp [← he]
    · simp only [findEntry, if_neg he] at h
      cases hr : findEntry rest k with
      | none => rw [hr] at h; simp at h
      | some jv =>
        rw [hr] at h
        have h2 : ((jv.1 + 1 : ℕ), jv.2) = iv := by simpa using h
        subst h2
        obtain ⟨hj, hget⟩ := ih hr
        exact ⟨by simpa using hj, by simpa using hget⟩

theorem findEntry_mem_keys :
    ∀ {l : List (ℚ × K)} {k : K}, k ∈ l.map Prod.snd →
      ∃ iv, findEntry l k = some iv := by
  intro l
  induction l with
  | nil => intro k h; simp at h
  | cons e rest ih =>
    intro k h
    by_cases he : e.2 = k
    · exact ⟨(0, e.1), by simp [findEntry, he]⟩
    · have hk : k ∈ rest.map Prod.snd := by
        rw [List.map_cons] at h
        rcases List.mem_cons.1 h with hx | hx
        · exact absurd hx.symm he
        · exact hx
      obtain ⟨iv, hiv⟩ := ih hk
      exact ⟨(iv.1 + 1, iv.2), by simp [findEntry, he, hiv]⟩

theorem findEntry_eq_none_of_not_mem {l : List (ℚ × K)} {k : K}
    (h : k ∉ l.map Prod.snd) : findEntry l k = none := by
  cases hf : findEntry l k with
  | none => rfl
  | some iv =>
    obtain ⟨hi, hget⟩ := findEntry_some hf
    refine absurd ?_ h
    refine List.mem_map.2 ⟨l.get ⟨iv.1, hi⟩, List.get_mem l iv.1 hi, ?_⟩
    rw [hget]

theorem keys_eraseIdx_subset {l : List (ℚ × K)} {i : ℕ} {x : K}
    (h : x ∈ (l.eraseIdx i).map Prod.snd) : x ∈ l.map Prod.snd := by
  rw [map_eraseIdx] at h
  exact List.eraseIdx_subset _ _ h

theorem not_mem_keys_eraseIdx {l : List (ℚ × K)} {i : ℕ} {hi : i < l.length} {k : K}
    (hnd : (l.map Prod.snd).Nodup) (hk : (l.get ⟨i, hi⟩).2 = k) :
    k ∉ (l.eraseIdx i).map Prod.snd := by
  rw [map_eraseIdx]
  have hlen : i < (l.map Prod.snd).length := by simpa using hi
  have hp := cons_eraseIdx_perm (l.map Prod.snd) i hlen
  have hget : (l.map Prod.snd).get ⟨i, hlen⟩ = k := by
    rw [List.get_eq_getElem, List.getElem_map]
    rw [← List.get_eq_getElem l ⟨i, hi⟩]
    exact hk
  have hnd2 : ((l.map Prod.snd).get ⟨i, hlen⟩ :: (l.map Prod.snd).eraseIdx i).Nodup :=
    hp.nodup_iff.2 hnd
  rw [hget] at hnd2
  exact (List.nodup_cons.1 hnd2).1

theorem mem_keys_removeEntry {l : List (ℚ × K)} {k x : K}
    (h : x ∈ (removeEntry l k).map Prod.snd) : x ∈ l.map Prod.snd := by
  induction l with
  | nil => simpa [removeEntry] using h
  | cons e rest ih =>
    by_cases he : e.2 = k
    · simp only [removeEntry, if_pos he] at h
      simp [h]
    · simp only [removeEntry, if_neg he, List.map_cons, List.mem_cons] at h ⊢
      exact h.imp id ih

theorem not_mem_keys_removeEntry {l : List (ℚ × K)} {k : K}
    (hnd : (l.map Prod.snd).Nodup) : k ∉ (removeEntry l k).map Prod.snd := by
  induction l with
  | nil => simp [removeEntry]
  | cons e rest ih =>
    rw [List.map_cons, List.nodup_cons] at hnd
    by_cases he : e.2 = k
    · simp only [removeEntry, if_pos he]
      rw [← he]
      exact hnd.1
    · simp only [removeEntry, if_neg he, List.map_cons, List.mem_cons]
      intro hx
      rcases hx with hx | hx
      · exact he hx.symm
      · exact ih hnd.2 hx

/-- P1: after `q[k] = v` the key `k` is in the queue. -/
theorem PQ.mem_keys_setitem_self (p : PQ K) (k : K) (v : ℚ) :
    k ∈ (p.setitem k v).keys := by
  cases hk : p.kind with
  | heapq =>
    cases hf : findEntry p.q k with
    | none =>
      simp only [PQ.setitem, hk, hf, PQ.keys]
      rw [((heapPush_perm p.q v k).map Prod.snd).mem_iff]
      simp
    | some iv =>
      obtain ⟨hi, _⟩ := findEntry_some hf
      simp only [PQ.setitem, hk, hf, PQ.keys]
      rw [((heapSetAt_perm p.q iv.1 hi v k).map Prod.snd).mem_iff]
      simp
  | lruq =>
    cases hf : findEntry p.q k with
    | none => simp [PQ.setitem, hk, hf, PQ.keys]
    | some iv => simp [PQ.setitem, hk, hf, PQ.keys]

/-- P2: `q[k] = v` adds no key other than `k`. -/
theorem PQ.mem_keys_setitem (p : PQ K) (k : K) (v : ℚ) {x : K}
    (h : x ∈ (p.setitem k v).keys) : x = k ∨ x ∈ p.keys := by
  have hgoal : x = k ∨ x ∈ p.q.map Prod.snd → x = k ∨ x ∈ p.keys := fun hx => hx
  apply hgoal
  cases hk : p.kind with
  | heapq =>
    cases hf : findEntry p.q k with
    | none =>
      simp only [PQ.setitem, hk, hf, PQ.keys] at h
      rw [((heapPush_perm p.q v k).map Prod.snd).mem_iff] at h
      simpa using h
    | some iv =>
      obtain ⟨hi, _⟩ := findEntry_some hf
      simp only [PQ.setitem, hk, hf, PQ.keys] at h
      rw [((heapSetAt_perm p.q iv.1 hi v k).map Prod.snd).mem_iff] at h
      rcases List.mem_cons.1 h with hx | hx
      · exact Or.inl (by simpa using hx)
      · exact Or.inr (keys_eraseIdx_subset hx)
  | lruq =>
    cases hf : findEntry p.q k with
    | none =>
      simp only [PQ.setitem, hk, hf, PQ.keys, List.map_append, List.mem_append] at h
      rcases h with hx | hx
      · exact Or.inr hx
      · exact Or.inl (by simpa using hx)
    | some iv =>
      simp only [PQ.setitem, hk, hf, PQ.keys, List.map_append, List.mem_append] at h
      rcases h with hx | hx
      · exact Or.inr (mem_keys_removeEntry hx)
      · exact Or.inl (by simpa using hx)

/-- P3: popping `k` removes it (the queue index has unique keys). -/
theorem PQ.not_mem_keys_popitem (p : PQ K) (k : K)
    (hmem : k ∈ p.keys) (hnd : p.keys.Nodup) : k ∉ (p.popitem k).1.keys := by
  obtain ⟨iv, hf⟩ := findEntry_mem_keys hmem
  obtain ⟨hi, hget⟩ := findEntry_some hf
  cases hk : p.kind with
  | heapq =>
    simp only [PQ.popitem, hk, hf, PQ.keys]
    rw [((heapPullAt_perm p.q iv.1 hi).map Prod.snd).mem_iff]
    exact not_mem_keys_eraseIdx hnd (by rw [hget])
  | lruq =>
    simp only [PQ.popitem, hk, hf, PQ.keys]
    exact not_mem_keys_removeEntry hnd

/-- P4: popping adds no keys. -/
theorem PQ.mem_keys_popitem (p : PQ K) (k : K) {x : K}
    (h : x ∈ (p.popitem k).1.keys) : x ∈ p.keys := by
  have hgoal : x ∈ p.q.map Prod.snd → x ∈ p.keys := fun hx => hx
  apply hgoal
  cases hf : findEntry p.q k with
  | none => simpa [PQ.popitem, hf, PQ.keys] using h
  | some iv =>
    obtain ⟨hi, _⟩ := findEntry_some hf
    cases hk : p.kind with
    | heapq =>
      simp only [PQ.popitem, hk, hf, PQ.keys] at h
      rw [((heapPullAt_perm p.q iv.1 hi).map Prod.snd).mem_iff] at h
      exact keys_eraseIdx_subset h
    | lruq =>
      simp only [PQ.popitem, hk, hf, PQ.keys] at h
      exact mem_keys_removeEntry h

/-- The score returned by `popitem` is the stored score. -/
theorem PQ.popitem_score (p : PQ K) (k : K) : (p.popitem k).2 = p.get k := by
  cases hf : findEntry p.q k with
  | none => simp [PQ.popitem, hf, PQ.get]
  | some iv => cases hk : p.kind <;> simp [PQ.popitem, hf, hk, PQ.get]

/-- P5: after `swapitem(k, v)` on a non-empty queue, `k` is in the queue. -/
theorem PQ.mem_keys_swapitem_self (p : PQ K) (k : K) (v : ℚ) (hne : p.q ≠ []) :
    k ∈ (p.swapitem k v).1.keys := by
  obtain ⟨e, rest, hq⟩ := List.exists_cons_of_ne_nil hne
  cases hk : p.kind with
  | heapq =>
    have hlen : (0 : ℕ) < (e :: rest).length := by simp
    have hperm := (heapSetAt_perm (e :: rest) 0 hlen v k).map Prod.snd
    simp only [PQ.swapitem, hq, hk, PQ.keys]
    rw [hperm.mem_iff]
    simp
  | lruq =>
    simp [PQ.swapitem, hq, hk, PQ.keys]

/-- P6: `swapitem(k, v)` adds no key other than `k`. -/
theorem PQ.mem_keys_swapitem (p : PQ K) (k : K) (v : ℚ) {x : K}
    (h : x ∈ (p.swapitem k v).1.keys) : x = k ∨ x ∈ p.keys := by
  have hgoal : x = k ∨ x ∈ p.q.map Prod.snd → x = k ∨ x ∈ p.keys := fun hx => hx
  apply hgoal
  cases hq : p.q with
  | nil =>
    simp only [PQ.swapitem, hq, PQ.keys] at h
    exact Or.inr h
  | cons e rest =>
    cases hk : p.kind with
    | heapq =>
      have hlen : (0 : ℕ) < (e :: rest).length := by simp
      have hperm := (heapSetAt_perm (e :: rest) 0 hlen v k).map Prod.snd
      simp only [PQ.swapitem, hq, hk, PQ.keys] at h
      rw [hperm.mem_iff] at h
      rcases List.mem_cons.1 h with hx | hx
      · exact Or.inl (by simpa using hx)
      · refine Or.inr ?_
        simp only [List.eraseIdx_zero, List.tail_cons] at hx
        simp [hx]
    | lruq =>
      simp only [PQ.swapitem, hq, hk, PQ.keys, List.map_append, List.mem_append] at h
      rcases h with hx | hx
      · exact Or.inr (by simp [hx])
      · exact Or.inl (by simpa using hx)

/-- P7: the key displaced by `swapitem` was in the queue. -/
theorem PQ.swapitem_old_mem (p : PQ K) (k : K) (v : ℚ) (hne : p.q ≠ []) :
    (p.swapitem k v).2.1 ∈ p.keys := by
  obtain ⟨e, rest, hq⟩ := List.exists_cons_of_ne_nil hne
  have hgoal : (p.swapitem k v).2.1 ∈ p.q.map Prod.snd → (p.swapitem k v).2.1 ∈ p.keys :=
    fun hx => hx
  apply hgoal
  cases hk : p.kind <;> · simp only [PQ.swapitem, hq, hk]; simp [hq]

/-- P8: scaling keeps the key list. -/
theorem PQ.keys_scale (p : PQ K) (m : ℚ) : (p.scale m).keys = p.keys := by
  simp [PQ.scale, PQ.keys]

end PQLemmas

/-! ### Frame lemmas for the cache operations -/

section CacheLemmas

variable {K V : Type} [DecidableEq K] [Inhabited K] [DecidableEq V]

namespace DLFUCache

theorem setmqueue_cqueue (s : DLFUCache K V) (k : K) (p0 : ℚ) :
    (setmqueue s k p0).cqueue = s.cqueue := by
  simp only [setmqueue]
  repeat' split
  all_goals rfl

theorem setmqueue_data (s : DLFUCache K V) (k : K) (p0 : ℚ) :
    (setmqueue s k p0).data = s.data := by
  simp only [setmqueue]
  repeat' split
  all_goals rfl

theorem decayall_data (s : DLFUCache K V) : (decayall s).data = s.data := by
  simp only [decayall]
  repeat' split
  all_goals rfl

theorem decayall_keys (s : DLFUCache K V) :
    (decayall s).cqueue.keys = s.cqueue.keys ∧ (decayall s).mqueue.keys = s.mqueue.keys := by
  simp only [decayall]
  repeat' split
  · exact ⟨PQ.keys_scale _ _, PQ.keys_scale _ _⟩
  · exact ⟨rfl, rfl⟩
  · exact ⟨rfl, rfl⟩

theorem getitem_data (s : DLFUCache K V) (k : K) : (s.getitem k).1.data = s.data := by
  simp only [getitem, inccqueue, incmqueue, setmqueue, decayall]
  repeat' split
  all_goals rfl

theorem getitem_get_count (s : DLFUCache K V) (k : K) :
    (s.getitem k).1.get_count = s.get_count + 1 := by
  simp only [getitem, inccqueue, incmqueue, setmqueue, decayall]
  repeat' split
  all_goals rfl

/-- One `get` of a shadow key: the key stays in the shadow queue and the
cache queue is untouched. -/
theorem getitem_shadow_step (s : DLFUCache K V) (k : K)
    (hm : k ∈ s.mqueue.keys) (hc : k ∉ s.cqueue.keys) :
    k ∈ (s.getitem k).1.mqueue.keys ∧ k ∉ (s.getitem k).1.cqueue.keys := by
  have hc1 : ¬k ∈ ({ s with get_count := s.get_count + 1 } : DLFUCache K V).cqueue.keys := hc
  have hm1 : k ∈ ({ s with get_count := s.get_count + 1 } : DLFUCache K V).mqueue.keys := hm
  simp only [getitem, incmqueue]
  rw [if_neg hc1, if_pos hm1]
  constructor
  · rw [(decayall_keys _).2]
    exact PQ.mem_keys_setitem_self _ _ _
  · rw [(decayall_keys _).1]
    exact hc

theorem lookup_dataSet_self (d : List (K × V)) (k : K) (v : V) :
    lookup (dataSet d k v) k = some v := by
  induction d with
  | nil => simp [dataSet, lookup]
  | cons e rest ih =>
    by_cases he : e.1 = k
    · simp [dataSet, he, lookup]
    · simp [dataSet, he, lookup, ih]

theorem lookup_dataSet_ne (d : List (K × V)) (k : K) (v : V) (x : K) (hx : x ≠ k) :
    lookup (dataSet d k v) x = lookup d x := by
  induction d with
  | nil => simp [dataSet, lookup, Ne.symm hx]
  | cons e rest ih =>
    by_cases he : e.1 = k
    · have hex : ¬(e.1 = x) := fun h => hx (by rw [← h, he])
      simp [dataSet, he, lookup, hex, Ne.symm hx]
    · simp [dataSet, he, lookup, ih]

theorem dataSet_dataSet (d : List (K × V)) (k : K) (v : V) :
    dataSet (dataSet d k v) k v = dataSet d k v := by
  induction d with
  | nil => simp [dataSet]
  | cons e rest ih =>
    by_cases he : e.1 = k
    · simp [dataSet, he]
    · simp [dataSet, he, ih]

theorem lookup_eq_none_of_not_mem (d : List (K × V)) (k : K)
    (h : k ∉ d.map Prod.fst) : lookup d k = none := by
  induction d with
  | nil => simp [lookup]
  | cons e rest ih =>
    rw [List.map_cons, List.mem_cons] at h
    push_neg at h
    simp only [lookup]
    rw [if_neg (fun hh => h.1 hh.symm)]
    exact ih h.2

theorem lookup_dataPop_self (d : List (K × V)) (k : K)
    (hd : (d.map Prod.fst).Nodup) : lookup (dataPop d k) k = none := by
  induction d with
  | nil => simp [dataPop, lookup]
  | cons e rest ih =>
    rw [List.map_cons, List.nodup_cons] at hd
    by_cases he : e.1 = k
    · simp only [dataPop, if_pos he]
      exact lookup_eq_none_of_not_mem rest k (he ▸ hd.1)
    · simp only [dataPop, if_neg he, lookup, if_neg he]
      exact ih hd.2

theorem movcqueue_data (s : DLFUCache K V) (k : K) : (movcqueue s k).data = s.data := by
  simp only [movcqueue, setmqueue]
  repeat' split
  all_goals rfl

theorem movcqueue_del_count (s : DLFUCache K V) (k : K) :
    (movcqueue s k).del_count = s.del_count := by
  simp only [movcqueue, setmqueue]
  repeat' split
  all_goals rfl

/-- The membership outcome of `_setmqueue` for a fresh key: inserted when
there is space or when the score reaches the mqueue minimum, dropped
otherwise. -/
theorem setmqueue_mem_iff (t : DLFUCache K V) (k : K) (p0 : ℚ)
    (hm : k ∉ t.mqueue.keys) (hmsize : 0 ≤ t.msize)
    (hmlen : (t.mqueue.len : ℤ) ≤ t.msize) :
    k ∈ (setmqueue t k p0).mqueue.keys ↔
      ((t.mqueue.len : ℤ) < t.msize ∨
        t.mqueueMinLe (if t.T.truthy then p0 else 0) = true) := by
  simp only [setmqueue]
  by_cases hsp : (t.mqueue.len : ℤ) < t.msize
  · rw [if_pos hsp]
    exact iff_of_true (PQ.mem_keys_setitem_self _ _ _) (Or.inl hsp)
  · rw [if_neg hsp]
    by_cases hle : t.mqueueMinLe (if t.T.truthy = true then p0 else 0) = true
    · rw [if_pos hle]
      have hmsz : t.msize ≠ 0 := by
        intro h0
        simp [mqueueMinLe, h0] at hle
      have hne : t.mqueue.q ≠ [] := by
        intro hq
        have h0 : (t.mqueue.len : ℤ) = 0 := by simp [PQ.len, hq]
        omega
      exact iff_of_true (PQ.mem_keys_swapitem_self _ _ _ hne) (Or.inr hle)
    · rw [if_neg hle]
      refine iff_of_false hm ?_
      rintro (h | h)
      · exact hsp h
      · exact hle h

theorem getitem_hit_counters (s : DLFUCache K V) (k : K) :
    ((s.getitem k).1.hit_count = s.hit_count + 1 ∧ (s.getitem k).1.mhit_count = s.mhit_count) ∨
    ((s.getitem k).1.hit_count = s.hit_count ∧ (s.getitem k).1.mhit_count = s.mhit_count + 1) ∨
    ((s.getitem k).1.hit_count = s.hit_count ∧ (s.getitem k).1.mhit_count = s.mhit_count) := by
  simp only [getitem, inccqueue, incmqueue, setmqueue, decayall]
  repeat' split
  all_goals simp

theorem setmqueue_counters (s : DLFUCache K V) (k : K) (p0 : ℚ) :
    (setmqueue s k p0).get_count = s.get_count ∧
    (setmqueue s k p0).set_count = s.set_count ∧
    (setmqueue s k p0).del_count = s.del_count ∧
    (setmqueue s k p0).hit_count = s.hit_count ∧
    (setmqueue s k p0).mhit_count = s.mhit_count := by
  simp only [setmqueue]
  repeat' split
  all_goals exact ⟨rfl, rfl, rfl, rfl, rfl⟩

theorem setcqueue_counters (s : DLFUCache K V) (k : K) (p0 : ℚ) :
    (setcqueue s k p0).get_count = s.get_count ∧
    (setcqueue s k p0).set_count = s.set_count ∧
    (setcqueue s k p0).del_count = s.del_count ∧
    (setcqueue s k p0).hit_count = s.hit_count ∧
    (setcqueue s k p0).mhit_count = s.mhit_count := by
  simp only [setcqueue]
  repeat' split
  all_goals first
    | exact ⟨rfl, rfl, rfl, rfl, rfl⟩
    | exact ⟨(setmqueue_counters _ _ _).1, (setmqueue_counters _ _ _).2.1,
        (setmqueue_counters _ _ _).2.2.1, (setmqueue_counters _ _ _).2.2.2.1,
        (setmqueue_counters _ _ _).2.2.2.2⟩

theorem movmqueue_counters (s : DLFUCache K V) (k : K) :
    (movmqueue s k).get_count = s.get_count ∧
    (movmqueue s k).set_count = s.set_count ∧
    (movmqueue s k).del_count = s.del_count ∧
    (movmqueue s k).hit_count = s.hit_count ∧
    (movmqueue s k).mhit_count = s.mhit_count := by
  simp only [movmqueue]
  split
  · exact ⟨(setcqueue_counters _ _ _).1, (setcqueue_counters _ _ _).2.1,
      (setcqueue_counters _ _ _).2.2.1, (setcqueue_counters _ _ _).2.2.2.1,
      (setcqueue_counters _ _ _).2.2.2.2⟩
  · exact ⟨rfl, rfl, rfl, rfl, rfl⟩

theorem movcqueue_counters (s : DLFUCache K V) (k : K) :
    (movcqueue s k).get_count = s.get_count ∧
    (movcqueue s k).set_count = s.set_count ∧
    (movcqueue s k).del_count = s.del_count ∧
    (movcqueue s k).hit_count = s.hit_count ∧
    (movcqueue s k).mhit_count = s.mhit_count := by
  simp only [movcqueue]
  exact ⟨(setmqueue_counters _ _ _).1, (setmqueue_counters _ _ _).2.1,
    (setmqueue_counters _ _ _).2.2.1, (setmqueue_counters _ _ _).2.2.2.1,
    (setmqueue_counters _ _ _).2.2.2.2⟩

theorem setitem_counters (s : DLFUCache K V) (k : K) (v : V) :
    (s.setitem k v).get_count = s.get_count ∧ (s.setitem k v).set_count = s.set_count + 1 ∧
    (s.setitem k v).del_count = s.del_count ∧ (s.setitem k v).hit_count = s.hit_count ∧
    (s.setitem k v).mhit_count = s.mhit_count := by
  have main : ∀ t : DLFUCache K V,
      t.get_count = s.get_count → t.set_count = s.set_count + 1 → t.del_count = s.del_count →
      t.hit_count = s.hit_count → t.mhit_count = s.mhit_count →
      ((if k ∈ t.cqueue.keys then { t with data := dataSet t.data k v } else t).get_count
          = s.get_count ∧
        (if k ∈ t.cqueue.keys then { t with data := dataSet t.data k v } else t).set_count
          = s.set_count + 1 ∧
        (if k ∈ t.cqueue.keys then { t with data := dataSet t.data k v } else t).del_count
          = s.del_count ∧
        (if k ∈ t.cqueue.keys then { t with data := dataSet t.data k v } else t).hit_count
          = s.hit_count ∧
        (if k ∈ t.cqueue.keys then { t with data := dataSet t.data k v } else t).mhit_count
          = s.mhit_count) := by
    intro t h1 h2 h3 h4 h5
    split
    · exact ⟨h1, h2, h3, h4, h5⟩
    · exact ⟨h1, h2, h3, h4, h5⟩
  simp only [setitem]
  by_cases hm : k ∈ s.mqueue.keys
  · rw [if_pos (show k ∈ ({ s with set_count := s.set_count + 1 } :
        DLFUCache K V).mqueue.keys from hm)]
    exact main _ (movmqueue_counters _ _).1 (movmqueue_counters _ _).2.1
      (movmqueue_counters _ _).2.2.1 (movmqueue_counters _ _).2.2.2.1
      (movmqueue_counters _ _).2.2.2.2
  · rw [if_neg (show ¬k ∈ ({ s with set_count := s.set_count + 1 } :
        DLFUCache K V).mqueue.keys from hm)]
    by_cases hc : k ∈ s.cqueue.keys
    · rw [if_neg (not_not_intro (show k ∈ ({ s with set_count := s.set_count + 1 } :
          DLFUCache K V).cqueue.keys from hc))]
      exact main _ rfl rfl rfl rfl rfl
    · rw [if_pos (show ¬k ∈ ({ s with set_count := s.set_count + 1 } :
          DLFUCache K V).cqueue.keys from hc)]
      exact main _ (setcqueue_counters _ _ _).1 (setcqueue_counters _ _ _).2.1
        (setcqueue_counters _ _ _).2.2.1 (setcqueue_counters _ _ _).2.2.2.1
        (setcqueue_counters _ _ _).2.2.2.2

theorem delitem_counters (s : DLFUCache K V) (k : K) :
    ((s.delitem k).getD s).get_count = s.get_count ∧
    ((s.delitem k).getD s).set_count = s.set_count ∧
    ((s.delitem k).getD s).hit_count = s.hit_count ∧
    ((s.delitem k).getD s).mhit_count = s.mhit_count := by
  simp only [delitem]
  split
  · simp only [Option.getD_some]
    exact ⟨(movcqueue_counters _ _).1, (movcqueue_counters _ _).2.1,
      (movcqueue_counters _ _).2.2.2.1, (movcqueue_counters _ _).2.2.2.2⟩
  · simp

theorem dataSet_eq_of_lookup (d : List (K × V)) (k : K) (v : V)
    (h : lookup d k = some v) : dataSet d k v = d := by
  induction d with
  | nil => simp [lookup] at h
  | cons e rest ih =>
    by_cases he : e.1 = k
    · simp only [lookup, if_pos he, Option.some.injEq] at h
      simp only [dataSet, if_pos he]
      rw [← h]
    · simp only [lookup, if_neg he] at h
      simp only [dataSet, if_neg he, ih h]

theorem setmqueue_mem (s : DLFUCache K V) (k0 : K) (p0 : ℚ) {x : K}
    (h : x ∈ (setmqueue s k0 p0).mqueue.keys) : x = k0 ∨ x ∈ s.mqueue.keys := by
  simp only [setmqueue] at h
  by_cases hsp : (s.mqueue.len : ℤ) < s.msize
  · rw [if_pos hsp] at h
    exact PQ.mem_keys_setitem _ _ _ h
  · rw [if_neg hsp] at h
    by_cases hle : s.mqueueMinLe (if s.T.truthy = true then p0 else 0) = true
    · rw [if_pos hle] at h
      exact PQ.mem_keys_swapitem _ _ _ h
    · rw [if_neg hle] at h
      exact Or.inr h

theorem setcqueue_eq_reject (s : DLFUCache K V) (k : K) (p0 : ℚ)
    (hsp : ¬((s.cqueue.len : ℤ) < s.size))
    (hle : ¬(s.cqueue_min ≤ (if s.T.truthy = true then p0 else 0))) :
    setcqueue s k p0 = s := by
  simp only [setcqueue]
  rw [if_neg hsp, if_neg (by simpa using hle)]

theorem setcqueue_insert_facts (s : DLFUCache K V) (k : K) (p0 : ℚ)
    (hsp : (s.cqueue.len : ℤ) < s.size) :
    k ∈ (setcqueue s k p0).cqueue.keys ∧
    (setcqueue s k p0).mqueue = s.mqueue ∧
    (setcqueue s k p0).data = s.data := by
  simp only [setcqueue]
  rw [if_pos hsp]
  exact ⟨PQ.mem_keys_setitem_self _ _ _, rfl, rfl⟩

theorem setcqueue_swap_facts (s : DLFUCache K V) (k : K) (p0 : ℚ)
    (hsp : ¬((s.cqueue.len : ℤ) < s.size))
    (hle : s.cqueue_min ≤ (if s.T.truthy = true then p0 else 0))
    (hne : s.cqueue.q ≠ []) (hk : k ∉ s.cqueue.keys) (hkm : k ∉ s.mqueue.keys) :
    k ∈ (setcqueue s k p0).cqueue.keys ∧
    k ∉ (setcqueue s k p0).mqueue.keys ∧
    ∃ d, (setcqueue s k p0).data = dataPop s.data d := by
  simp only [setcqueue]
  rw [if_neg hsp, if_pos (decide_eq_true hle)]
  refine ⟨?_, ?_, ?_⟩
  · show k ∈ (setmqueue _ _ _).cqueue.keys
    rw [setmqueue_cqueue]
    show k ∈ ((s.cqueue.swapitem k (if s.T.truthy = true then p0 else 0)).1).keys
    exact PQ.mem_keys_swapitem_self _ _ _ hne
  · show ¬k ∈ (setmqueue _ _ _).mqueue.keys
    intro hmem
    rcases setmqueue_mem _ _ _ hmem with hx | hx
    · have hold : (s.cqueue.swapitem k (if s.T.truthy = true then p0 else 0)).2.1
          ∈ s.cqueue.keys := PQ.swapitem_old_mem _ _ _ hne
      rw [← hx] at hold
      exact hk hold
    · exact hkm hx
  · refine ⟨(s.cqueue.swapitem k (if s.T.truthy = true then p0 else 0)).2.1, ?_⟩
    show dataPop (setmqueue _ _ _).data _ = _
    rw [setmqueue_data]

theorem movmqueue_eq_reject (s : DLFUCache K V) (k : K)
    (hcond : ¬(s.cqueue_min ≤ s.mqueue.get k)) :
    movmqueue s k = s := by
  simp only [movmqueue]
  rw [if_neg (by simpa using hcond)]

theorem movmqueue_eq_accept (s : DLFUCache K V) (k : K)
    (hcond : s.cqueue_min ≤ s.mqueue.get k) :
    movmqueue s k = setcqueue
      { s with mqueue := (s.mqueue.popitem k).1,
               mcount_sum := s.mcount_sum - (s.mqueue.popitem k).2,
               mcount_sum2 := s.mcount_sum2 - (s.mqueue.popitem k).2 * (s.mqueue.popitem k).2 }
      k (s.mqueue.popitem k).2 := by
  simp only [movmqueue]
  rw [if_pos (decide_eq_true hcond)]

/-- Second `set(k, v)` on a state that already caches `v` under `k` only
bumps `set_count` (the data overwrite is a no-op). -/
theorem setitem_second_cached (t : DLFUCache K V) (k : K) (v : V)
    (hm : k ∉ t.mqueue.keys) (hc : k ∈ t.cqueue.keys) (hv : lookup t.data k = some v) :
    t.setitem k v = { t with set_count := t.set_count + 1 } := by
  simp only [setitem]
  rw [if_neg (show ¬k ∈ ({ t with set_count := t.set_count + 1 } :
        DLFUCache K V).mqueue.keys from hm),
      if_neg (not_not_intro (show k ∈ ({ t with set_count := t.set_count + 1 } :
        DLFUCache K V).cqueue.keys from hc)),
      if_pos (show k ∈ ({ t with set_count := t.set_count + 1 } :
        DLFUCache K V).cqueue.keys from hc)]
  rw [show dataSet ({ t with set_count := t.set_count + 1 } : DLFUCache K V).data k v = t.data
      from dataSet_eq_of_lookup t.data k v hv]

/-- Second `set(k, v)` on a state whose shadow still holds `k` below the
cqueue minimum only bumps `set_count` (the move is rejected again). -/
theorem setitem_second_shadow_reject (t : DLFUCache K V) (k : K) (v : V)
    (hm : k ∈ t.mqueue.keys) (hc : k ∉ t.cqueue.keys)
    (hcond : ¬(t.cqueue_min ≤ t.mqueue.get k)) :
    t.setitem k v = { t with set_count := t.set_count + 1 } := by
  simp only [setitem]
  rw [if_pos (show k ∈ ({ t with set_count := t.set_count + 1 } :
        DLFUCache K V).mqueue.keys from hm)]
  rw [movmqueue_eq_reject _ _ (show ¬(({ t with set_count := t.set_count + 1 } :
        DLFUCache K V).cqueue_min ≤ ({ t with set_count := t.set_count + 1 } :
        DLFUCache K V).mqueue.get k) from hcond)]
  rw [if_neg (show ¬k ∈ ({ t with set_count := t.set_count + 1 } :
        DLFUCache K V).cqueue.keys from hc)]

/-- Second `set(k, v)` on a state where `k` is nowhere and admission keeps
failing only bumps `set_count`. -/
theorem setitem_second_fresh_reject (t : DLFUCache K V) (k : K) (v : V)
    (hm : k ∉ t.mqueue.keys) (hc : k ∉ t.cqueue.keys)
    (hsp : ¬((t.cqueue.len : ℤ) < t.size))
    (hle : ¬(t.cqueue_min ≤ (if t.T.truthy = true then t.C else 0))) :
    t.setitem k v = { t with set_count := t.set_count + 1 } := by
  simp only [setitem]
  rw [if_neg (show ¬k ∈ ({ t with set_count := t.set_count + 1 } :
        DLFUCache K V).mqueue.keys from hm),
      if_pos (show ¬k ∈ ({ t with set_count := t.set_count + 1 } :
        DLFUCache K V).cqueue.keys from hc)]
  rw [setcqueue_eq_reject _ k _
      (show ¬((({ t with set_count := t.set_count + 1 } :
        DLFUCache K V).cqueue.len : ℤ) < ({ t with set_count := t.set_count + 1 } :
        DLFUCache K V).size) from hsp)
      (show ¬(({ t with set_count := t.set_count + 1 } : DLFUCache K V).cqueue_min ≤
        (if ({ t with set_count := t.set_count + 1 } : DLFUCache K V).T.truthy = true
         then ({ t with set_count := t.set_count + 1 } : DLFUCache K V).C else 0)) from hle)]
  rw [if_neg (show ¬k ∈ ({ t with set_count := t.set_count + 1 } :
        DLFUCache K V).cqueue.keys from hc)]

/-- In the accepted `_movmqueue` path the key always ends up in the cqueue
and out of the mqueue: the admission re-test cannot fail, because with a
truthy `T` it repeats the entry test verbatim, and in the LRU regime the
stored shadow scores are `0`. -/
theorem movmqueue_accept_facts (s : DLFUCache K V) (k : K)
    (hcond : s.cqueue_min ≤ s.mqueue.get k)
    (hm : k ∈ s.mqueue.keys) (hc : k ∉ s.cqueue.keys) (hnd : s.mqueue.keys.Nodup)
    (hsize : 1 ≤ s.size) (hclen : (s.cqueue.len : ℤ) ≤ s.size)
    (hlru : s.T.truthy = false → s.mqueue.get k = 0) :
    k ∈ (movmqueue s k).cqueue.keys ∧ k ∉ (movmqueue s k).mqueue.keys := by
  have hknot : k ∉ (s.mqueue.popitem k).1.keys := PQ.not_mem_keys_popitem s.mqueue k hm hnd
  rw [movmqueue_eq_accept s k hcond]
  by_cases hsp : (s.cqueue.len : ℤ) < s.size
  · obtain ⟨h1, h2, _⟩ := setcqueue_insert_facts
      { s with mqueue := (s.mqueue.popitem k).1,
               mcount_sum := s.mcount_sum - (s.mqueue.popitem k).2,
               mcount_sum2 := s.mcount_sum2 - (s.mqueue.popitem k).2 * (s.mqueue.popitem k).2 }
      k (s.mqueue.popitem k).2 hsp
    refine ⟨h1, ?_⟩
    rw [h2]
    exact hknot
  · have hpre : s.cqueue_min ≤ (if s.T.truthy = true then (s.mqueue.popitem k).2 else 0) := by
      rw [PQ.popitem_score]
      cases htr : s.T.truthy
      · rw [if_neg (by simp)]
        have h0 := hlru htr
        rw [h0] at hcond
        exact hcond
      · rw [if_pos rfl]
        exact hcond
    have hne : s.cqueue.q ≠ [] := by
      intro hq
      have h0 : (s.cqueue.len : ℤ) = 0 := by simp [PQ.len, hq]
      omega
    obtain ⟨h1, h2, _⟩ := setcqueue_swap_facts
      { s with mqueue := (s.mqueue.popitem k).1,
               mcount_sum := s.mcount_sum - (s.mqueue.popitem k).2,
               mcount_sum2 := s.mcount_sum2 - (s.mqueue.popitem k).2 * (s.mqueue.popitem k).2 }
      k (s.mqueue.popitem k).2 hsp hpre hne hc hknot
    exact ⟨h1, h2⟩

/-- The three possible outcomes of `_setcqueue` for a key that is in
neither queue: admitted (with space or by replacing the minimum), in which
case the key is in the cqueue and not in the mqueue; or rejected with the
state unchanged. -/
theorem setcqueue_fresh_cases (s : DLFUCache K V) (k : K) (p0 : ℚ)
    (hc : k ∉ s.cqueue.keys) (hm : k ∉ s.mqueue.keys)
    (hsize : 1 ≤ s.size) (hclen : (s.cqueue.len : ℤ) ≤ s.size) :
    (k ∈ (setcqueue s k p0).cqueue.keys ∧ k ∉ (setcqueue s k p0).mqueue.keys) ∨
    (setcqueue s k p0 = s ∧ ¬((s.cqueue.len : ℤ) < s.size) ∧
      ¬(s.cqueue_min ≤ (if s.T.truthy = true then p0 else 0))) := by
  by_cases hsp : (s.cqueue.len : ℤ) < s.size
  · obtain ⟨h1, h2, _⟩ := setcqueue_insert_facts s k p0 hsp
    refine Or.inl ⟨h1, ?_⟩
    rw [h2]
    exact hm
  · by_cases hle : s.cqueue_min ≤ (if s.T.truthy = true then p0 else 0)
    · have hne : s.cqueue.q ≠ [] := by
        intro hq
        have h0 : (s.cqueue.len : ℤ) = 0 := by simp [PQ.len, hq]
        omega
      obtain ⟨h1, h2, _⟩ := setcqueue_swap_facts s k p0 hsp hle hne hc hm
      exact Or.inl ⟨h1, h2⟩
    · exact Or.inr ⟨setcqueue_eq_reject s k p0 hsp hle, hsp, hle⟩

theorem setmqueue_CMT (s : DLFUCache K V) (k : K) (p0 : ℚ) :
    (setmqueue s k p0).C = s.C ∧ (setmqueue s k p0).T = s.T ∧ (setmqueue s k p0).M = s.M := by
  simp only [setmqueue]
  repeat' split
  all_goals exact ⟨rfl, rfl, rfl⟩

theorem setcqueue_CMT (s : DLFUCache K V) (k : K) (p0 : ℚ) :
    (setcqueue s k p0).C = s.C ∧ (setcqueue s k p0).T = s.T ∧ (setcqueue s k p0).M = s.M := by
  simp only [setcqueue]
  repeat' split
  all_goals first
    | exact ⟨rfl, rfl, rfl⟩
    | exact ⟨(setmqueue_CMT _ _ _).1, (setmqueue_CMT _ _ _).2.1, (setmqueue_CMT _ _ _).2.2⟩

theorem movmqueue_CMT (s : DLFUCache K V) (k : K) :
    (movmqueue s k).C = s.C ∧ (movmqueue s k).T = s.T ∧ (movmqueue s k).M = s.M := by
  simp only [movmqueue]
  split
  · exact ⟨(setcqueue_CMT _ _ _).1, (setcqueue_CMT _ _ _).2.1, (setcqueue_CMT _ _ _).2.2⟩
  · exact ⟨rfl, rfl, rfl⟩

theorem movcqueue_CMT (s : DLFUCache K V) (k : K) :
    (movcqueue s k).C = s.C ∧ (movcqueue s k).T = s.T ∧ (movcqueue s k).M = s.M := by
  simp only [movcqueue]
  exact ⟨(setmqueue_CMT _ _ _).1, (setmqueue_CMT _ _ _).2.1, (setmqueue_CMT _ _ _).2.2⟩

theorem setitem_CMT (s : DLFUCache K V) (k : K) (v : V) :
    (s.setitem k v).C = s.C ∧ (s.setitem k v).T = s.T ∧ (s.setitem k v).M = s.M := by
  have main : ∀ t : DLFUCache K V, t.C = s.C → t.T = s.T → t.M = s.M →
      ((if k ∈ t.cqueue.keys then { t with data := dataSet t.data k v } else t).C = s.C ∧
       (if k ∈ t.cqueue.keys then { t with data := dataSet t.data k v } else t).T = s.T ∧
       (if k ∈ t.cqueue.keys then { t with data := dataSet t.data k v } else t).M = s.M) := by
    intro t h1 h2 h3
    split
    · exact ⟨h1, h2, h3⟩
    · exact ⟨h1, h2, h3⟩
  simp only [setitem]
  by_cases hm : k ∈ s.mqueue.keys
  · rw [if_pos (show k ∈ ({ s with set_count := s.set_count + 1 } :
        DLFUCache K V).mqueue.keys from hm)]
    exact main _ (movmqueue_CMT _ _).1 (movmqueue_CMT _ _).2.1 (movmqueue_CMT _ _).2.2
  · rw [if_neg (show ¬k ∈ ({ s with set_count := s.set_count + 1 } :
        DLFUCache K V).mqueue.keys from hm)]
    by_cases hc : k ∈ s.cqueue.keys
    · rw [if_neg (not_not_intro (show k ∈ ({ s with set_count := s.set_count + 1 } :
          DLFUCache K V).cqueue.keys from hc))]
      exact main _ rfl rfl rfl
    · rw [if_pos (show ¬k ∈ ({ s with set_count := s.set_count + 1 } :
          DLFUCache K V).cqueue.keys from hc)]
      exact main _ (setcqueue_CMT _ _ _).1 (setcqueue_CMT _ _ _).2.1 (setcqueue_CMT _ _ _).2.2

theorem delitem_CMT (s : DLFUCache K V) (k : K) :
    ((s.delitem k).getD s).C = s.C ∧ ((s.delitem k).getD s).T = s.T ∧
    ((s.delitem k).getD s).M = s.M := by
  simp only [delitem]
  split
  · exact ⟨(movcqueue_CMT _ _).1, (movcqueue_CMT _ _).2.1, (movcqueue_CMT _ _).2.2⟩
  · exact ⟨rfl, rfl, rfl⟩

theorem decayall_TM (s : DLFUCache K V) :
    (decayall s).T = s.T ∧ (decayall s).M = s.M := by
  simp only [decayall]
  repeat' split
  all_goals exact ⟨rfl, rfl⟩

theorem decayall_C (s : DLFUCache K V) :
    (decayall s).C = s.C ∨ (decayall s).C = 1 ∨
      (s.T.truthy = true ∧ (decayall s).C = s.C * s.M.q) := by
  simp only [decayall]
  split
  · rename_i ht
    split
    · exact Or.inr (Or.inl rfl)
    · exact Or.inr (Or.inr ⟨ht, rfl⟩)
  · exact Or.inl rfl

theorem getitem_CMT (s : DLFUCache K V) (k : K) :
    ∃ s2 : DLFUCache K V,
      (s.getitem k).1 = decayall s2 ∧ s2.C = s.C ∧ s2.T = s.T ∧ s2.M = s.M := by
  simp only [getitem]
  split
  · exact ⟨_, rfl, rfl, rfl, rfl⟩
  · split
    · exact ⟨_, rfl, rfl, rfl, rfl⟩
    · exact ⟨_, rfl, (setmqueue_CMT _ _ _).1, (setmqueue_CMT _ _ _).2.1,
        (setmqueue_CMT _ _ _).2.2⟩

/-- One operation keeps `T` and `M`, and keeps `C ≥ 1` as long as a truthy
`T` comes with a finite multiplier `M ≥ 1`. -/
theorem step_CM (s : DLFUCache K V) (op : Op K V)
    (h1 : 1 ≤ s.C) (h2 : s.T.truthy = true → ∃ m : ℚ, s.M = .fin m ∧ 1 ≤ m) :
    (s.step op).T = s.T ∧ (s.step op).M = s.M ∧ 1 ≤ (s.step op).C := by
  cases op with
  | get k =>
    obtain ⟨s2, he, hC, hT2, hM2⟩ := getitem_CMT s k
    simp only [step]
    rw [he]
    refine ⟨?_, ?_, ?_⟩
    · rw [(decayall_TM s2).1, hT2]
    · rw [(decayall_TM s2).2, hM2]
    · rcases decayall_C s2 with h | h | ⟨ht, h⟩
      · rw [h, hC]; exact h1
      · rw [h]
      · obtain ⟨m, hMf, hm⟩ := h2 (by rw [← hT2]; exact ht)
        rw [h, hC, hM2, hMf]
        have hC0 : (0 : ℚ) ≤ s.C := le_trans zero_le_one h1
        calc (1 : ℚ) ≤ s.C := h1
          _ = s.C * 1 := (mul_one _).symm
          _ ≤ s.C * (Flt.fin m).q := by
              apply mul_le_mul_of_nonneg_left _ hC0
              simpa [Flt.q] using hm
  | set k v =>
    simp only [step]
    exact ⟨(setitem_CMT _ _ _).2.1, (setitem_CMT _ _ _).2.2, by rw [(setitem_CMT _ _ _).1]; exact h1⟩
  | del k =>
    simp only [step]
    exact ⟨(delitem_CMT _ _).2.1, (delitem_CMT _ _).2.2, by rw [(delitem_CMT _ _).1]; exact h1⟩
  | clear =>
    exact ⟨rfl, rfl, le_refl 1⟩

theorem run_CM (s : DLFUCache K V) (ops : List (Op K V))
    (h1 : 1 ≤ s.C) (h2 : s.T.truthy = true → ∃ m : ℚ, s.M = .fin m ∧ 1 ≤ m) :
    (s.run ops).T = s.T ∧ (s.run ops).M = s.M ∧ 1 ≤ (s.run ops).C := by
  induction ops generalizing s with
  | nil => exact ⟨rfl, rfl, h1⟩
  | cons op rest ih =>
    obtain ⟨hT, hM, hC⟩ := step_CM s op h1 h2
    obtain ⟨rT, rM, rC⟩ := ih (s.step op) hC (by rw [hT, hM]; exact h2)
    refine ⟨?_, ?_, rC⟩
    · show ((s.step op).run rest).T = s.T
      rw [rT, hT]
    · show ((s.step op).run rest).M = s.M
      rw [rM, hM]

/-- Statistics invariant preservation for one `DLFUCache` operation. -/
theorem step_stats (s : DLFUCache K V) (op : Op K V)
    (h1 : s.hit_count ≤ s.get_count) (h2 : s.hit_count + s.mhit_count ≤ s.get_count) :
    (s.step op).hit_count ≤ (s.step op).get_count ∧
    (s.step op).hit_count + (s.step op).mhit_count ≤ (s.step op).get_count := by
  cases op with
  | get k =>
    have hg := getitem_get_count s k
    have hh := getitem_hit_counters s k
    simp only [step]
    rcases hh with ⟨ha, hb⟩ | ⟨ha, hb⟩ | ⟨ha, hb⟩ <;> rw [hg, ha, hb] <;> omega
  | set k v =>
    obtain ⟨hg, _, _, hh, hm2⟩ := setitem_counters s k v
    simp only [step]
    rw [hg, hh, hm2]
    omega
  | del k =>
    obtain ⟨hg, _, hh, hm2⟩ := delitem_counters s k
    simp only [step]
    rw [hg, hh, hm2]
    omega
  | clear =>
    simp [step, clear, reset_stats]

theorem run_stats (s : DLFUCache K V) (ops : List (Op K V))
    (h1 : s.hit_count ≤ s.get_count) (h2 : s.hit_count + s.mhit_count ≤ s.get_count) :
    (s.run ops).hit_count ≤ (s.run ops).get_count ∧
    (s.run ops).hit_count + (s.run ops).mhit_count ≤ (s.run ops).get_count := by
  induction ops generalizing s with
  | nil => exact ⟨h1, h2⟩
  | cons op rest ih =>
    obtain ⟨g1, g2⟩ := step_stats s op h1 h2
    exact ih (s.step op) g1 g2

end DLFUCache

namespace ADLFUCache

/-- The controller work before the base `get` changes no counter: the base
of an ADLFU `get` is a plain DLFU `get` on a counters-identical state. -/
theorem getitem_base (a : ADLFUCache K V) (k : K) :
    ∃ b : DLFUCache K V, (a.getitem k).1.base = (b.getitem k).1 ∧
      b.hit_count = a.base.hit_count ∧ b.mhit_count = a.base.mhit_count ∧
      b.get_count = a.base.get_count := by
  exact ⟨_, rfl, rfl, rfl, rfl⟩

theorem step_stats_adlfu (a : ADLFUCache K V) (op : Op K V)
    (h1 : a.base.hit_count ≤ a.base.get_count)
    (h2 : a.base.hit_count + a.base.mhit_count ≤ a.base.get_count) :
    (a.step op).base.hit_count ≤ (a.step op).base.get_count ∧
    (a.step op).base.hit_count + (a.step op).base.mhit_count ≤ (a.step op).base.get_count := by
  cases op with
  | get k =>
    obtain ⟨b, hb, e1, e2, e3⟩ := getitem_base a k
    have hg := DLFUCache.getitem_get_count b k
    have hh := DLFUCache.getitem_hit_counters b k
    simp only [step]
    rw [hb]
    rcases hh with ⟨ha, hbm⟩ | ⟨ha, hbm⟩ | ⟨ha, hbm⟩ <;>
      rw [hg, ha, hbm, e1, e2, e3] <;> omega
  | set k v =>
    obtain ⟨hg, _, _, hh, hm2⟩ := DLFUCache.setitem_counters a.base k v
    simp only [step]
    rw [hg, hh, hm2]
    omega
  | del k =>
    obtain ⟨hg, _, hh, hm2⟩ := DLFUCache.delitem_counters a.base k
    simp only [step]
    rw [hg, hh, hm2]
    omega
  | clear =>
    simp [step, DLFUCache.clear, DLFUCache.reset_stats]

theorem run_stats_adlfu (a : ADLFUCache K V) (ops : List (Op K V))
    (h1 : a.base.hit_count ≤ a.base.get_count)
    (h2 : a.base.hit_count + a.base.mhit_count ≤ a.base.get_count) :
    (a.run ops).base.hit_count ≤ (a.run ops).base.get_count ∧
    (a.run ops).base.hit_count + (a.run ops).base.mhit_count ≤ (a.run ops).base.get_count := by
  induction ops generalizing a with
  | nil => exact ⟨h1, h2⟩
  | cons op rest ih =>
    obtain ⟨g1, g2⟩ := step_stats_adlfu a op h1 h2
    exact ih (a.step op) g1 g2

end ADLFUCache

namespace ARCCache

theorem getitem_counters (s : ARCCache K V) (k : K) :
    (s.getitem k).1.get_count = s.get_count + 1 ∧
    (s.getitem k).1.set_count = s.set_count ∧
    (s.getitem k).1.mhit_count = s.mhit_count ∧
    ((s.getitem k).1.hit_count = s.hit_count + 1 ∨ (s.getitem k).1.hit_count = s.hit_count) := by
  simp only [getitem]
  repeat' split
  all_goals simp

theorem replace_counters (s : ARCCache K V) (k : K) :
    (s.replace k).get_count = s.get_count ∧ (s.replace k).set_count = s.set_count ∧
    (s.replace k).hit_count = s.hit_count ∧ (s.replace k).mhit_count = s.mhit_count := by
  simp only [replace]
  repeat' split
  all_goals exact ⟨rfl, rfl, rfl, rfl⟩

theorem setitem_counters_arc (s : ARCCache K V) (k : K) (v : V) :
    (s.setitem k v).get_count = s.get_count ∧
    (s.setitem k v).set_count = s.set_count + 1 ∧
    (s.setitem k v).hit_count = s.hit_count ∧
    ((s.setitem k v).mhit_count = s.mhit_count + 1 ∨ (s.setitem k v).mhit_count = s.mhit_count) := by
  simp only [setitem]
  repeat' split
  all_goals first
    | exact ⟨rfl, rfl, rfl, Or.inr rfl⟩
    | exact ⟨(replace_counters _ _).1, (replace_counters _ _).2.1,
        (replace_counters _ _).2.2.1, Or.inl (replace_counters _ _).2.2.2⟩
    | exact ⟨(replace_counters _ _).1, (replace_counters _ _).2.1,
        (replace_counters _ _).2.2.1, Or.inr (replace_counters _ _).2.2.2⟩

theorem delitem_counters_arc (s : ARCCache K V) (k : K) :
    ((s.delitem k).getD s).get_count = s.get_count ∧
    ((s.delitem k).getD s).set_count = s.set_count ∧
    ((s.delitem k).getD s).hit_count = s.hit_count ∧
    ((s.delitem k).getD s).mhit_count = s.mhit_count := by
  simp only [delitem]
  repeat' split
  all_goals simp

theorem step_stats_arc (s : ARCCache K V) (op : Op K V)
    (h1 : s.hit_count ≤ s.get_count)
    (h2 : s.hit_count + s.mhit_count ≤ s.get_count + s.set_count) :
    (s.step op).hit_count ≤ (s.step op).get_count ∧
    (s.step op).hit_count + (s.step op).mhit_count ≤
      (s.step op).get_count + (s.step op).set_count := by
  cases op with
  | get k =>
    obtain ⟨hg, hs, hm2, hh⟩ := getitem_counters s k
    simp only [step]
    rcases hh with ha | ha <;> rw [hg, hs, hm2, ha] <;> omega
  | set k v =>
    obtain ⟨hg, hs, hh, hm2⟩ := setitem_counters_arc s k v
    simp only [step]
    rcases hm2 with ha | ha <;> rw [hg, hs, hh, ha] <;> omega
  | del k =>
    obtain ⟨hg, hs, hh, hm2⟩ := delitem_counters_arc s k
    simp only [step]
    rw [hg, hs, hh, hm2]
    omega
  | clear =>
    simp [step, clear]

theorem run_stats_arc (s : ARCCache K V) (ops : List (Op K V))
    (h1 : s.hit_count ≤ s.get_count)
    (h2 : s.hit_count + s.mhit_count ≤ s.get_count + s.set_count) :
    (s.run ops).hit_count ≤ (s.run ops).get_count ∧
    (s.run ops).hit_count + (s.run ops).mhit_count ≤
      (s.run ops).get_count + (s.run ops).set_count := by
  induction ops generalizing s with
  | nil => exact ⟨h1, h2⟩
  | cons op rest ih =>
    obtain ⟨g1, g2⟩ := step_stats_arc s op h1 h2
    exact ih (s.step op) g1 g2

end ARCCache

end CacheLemmas

/-! ### The claims -/

section Claims

variable {K V : Type} [DecidableEq K] [Inhabited K] [DecidableEq V]

set_option maxRecDepth 4000000

/-- C2 (confirmed): `DLFUCache(3, 0, T=0)` with keys `A..E = 1..5`: after
`set A; set B; set C; set D` the store holds exactly `[B, C, D]` — so `A`
is the only key evicted so far and `C` is still cached — and after the
further `get B; set E` it holds exactly `{B, D, E}` (store order
`[B, D, E]`, LRU order `[D, B, E]`) — so `C` was evicted second. -/
theorem C2_lru_scenario :
    (DLFUCache.run (DLFUCache.mk0 3 0 (.fin 0) : DLFUCache ℤ ℤ)
        [.set 1 11, .set 2 12, .set 3 13, .set 4 14]).data.map Prod.fst = [2, 3, 4] ∧
    (DLFUCache.run (DLFUCache.mk0 3 0 (.fin 0) : DLFUCache ℤ ℤ)
        [.set 1 11, .set 2 12, .set 3 13, .set 4 14, .get 2, .set 5 15]).data.map Prod.fst
        = [2, 4, 5] ∧
    (DLFUCache.run (DLFUCache.mk0 3 0 (.fin 0) : DLFUCache ℤ ℤ)
        [.set 1 11, .set 2 12, .set 3 13, .set 4 14, .get 2, .set 5 15]).cqueue.keys
        = [4, 2, 5] := by
  with_unfolding_all decide

/-- C9 (counterexample): `DLFUCache.__init__` performs no validation.
Construction with a non-positive size, a negative msize and a `nan` decay
constant all at once succeeds, against the claim that it fails with
*InvalidConfig*; the only failing construction in the claimed-good domain
boundary, `size = 0` with finite non-zero `T`, raises `ZeroDivisionError`,
not *InvalidConfig* (no such error exists in the code). -/
theorem C9_counterexample :
    (DLFUCache.init (-1) (-1) .nan : Except DLFUCache.InitError (DLFUCache ℤ ℤ)).isOk
        = true ∧
    (DLFUCache.init 3 (-1) (.fin 4) : Except DLFUCache.InitError (DLFUCache ℤ ℤ)).isOk
        = true ∧
    (DLFUCache.init 3 3 .nan : Except DLFUCache.InitError (DLFUCache ℤ ℤ)).isOk = true ∧
    (match (DLFUCache.init 0 0 (.fin 4) : Except DLFUCache.InitError (DLFUCache ℤ ℤ)) with
      | .error .zeroDivision => true
      | _ => false) = true := by
  with_unfolding_all decide

/-- C9 (amended): the constructor validates nothing.  `DLFUCache(size,
msize, T)` succeeds for every argument combination except a finite non-zero
`T` with `size = 0`, where the float division computing `M` raises
`ZeroDivisionError`; there is no *InvalidConfig* error.  In particular the
claimed-good domain `size > 0, msize ≥ 0, T ∈ [0, ∞]` does succeed, but so
do non-positive sizes, negative msizes, and `nan` decay constants. -/
theorem C9_init_no_validation (size msize : ℤ) (T : Flt) :
    (DLFUCache.init size msize T : Except DLFUCache.InitError (DLFUCache ℤ ℤ)).isOk = true ↔
      (∀ q : ℚ, T = .fin q → q = 0 ∨ size ≠ 0) := by
  cases T with
  | fin q =>
    simp only [DLFUCache.init]
    by_cases h : q ≠ 0 ∧ q * (size : ℚ) = 0
    · rw [if_pos h]
      refine iff_of_false (by simp [Except.isOk, Except.toBool]) ?_
      intro hall
      rcases hall q rfl with h0 | hs
      · exact h.1 h0
      · rcases mul_eq_zero.1 h.2 with h0 | h0
        · exact h.1 h0
        · exact hs (by exact_mod_cast h0)
    · rw [if_neg h]
      refine iff_of_true rfl ?_
      intro q2 hq2
      rcases Flt.fin.inj hq2 with rfl
      by_cases h0 : q = 0
      · exact Or.inl h0
      · refine Or.inr fun hs => ?_
        exact h ⟨h0, by rw [hs]; simp⟩
  | inf =>
    refine iff_of_true rfl ?_
    intro q hq
    exact Flt.noConfusion hq
  | nan =>
    refine iff_of_true rfl ?_
    intro q hq
    exact Flt.noConfusion hq

/-- C5 (counterexample): on a `DLFUCache(1, 1, T=4)` holding key `1`,
`contains 1` does return `true`, but it is the inherited
`Mapping.__contains__`, which calls `__getitem__`: `get_count` goes from
`0` to `1` and the scale factor `C` changes from `1` to `5/4`, against the
claim that the state is unchanged. -/
theorem C5_counterexample :
    ((DLFUCache.run (DLFUCache.mk0 1 1 (.fin 4) : DLFUCache ℤ ℤ) [.set 1 11]).containsOp 1).2
        = true ∧
    (DLFUCache.run (DLFUCache.mk0 1 1 (.fin 4) : DLFUCache ℤ ℤ) [.set 1 11]).get_count = 0 ∧
    ((DLFUCache.run (DLFUCache.mk0 1 1 (.fin 4) : DLFUCache ℤ ℤ) [.set 1 11]).containsOp 1).1.get_count
        = 1 ∧
    (DLFUCache.run (DLFUCache.mk0 1 1 (.fin 4) : DLFUCache ℤ ℤ) [.set 1 11]).C = 1 ∧
    ((DLFUCache.run (DLFUCache.mk0 1 1 (.fin 4) : DLFUCache ℤ ℤ) [.set 1 11]).containsOp 1).1.C
        = 5 / 4 := by
  with_unfolding_all decide

/-- C5 (amended): `contains(k)` does return exactly whether `k` has a
stored value, but it does *not* leave the state unchanged: `DLFUCache`
inherits `collections.abc.Mapping.__contains__`, which performs a full
`__getitem__`, so the state after `contains` is the state after a `get`
and `get_count` always grows by one. -/
theorem C5_contains_is_a_get (s : DLFUCache K V) (k : K) :
    (s.containsOp k).2 = (lookup s.data k).isSome ∧
    (s.containsOp k).1 = (s.getitem k).1 ∧
    (s.containsOp k).1.get_count = s.get_count + 1 := by
  refine ⟨?_, rfl, ?_⟩
  · show ((s.getitem k).2).isSome = (lookup s.data k).isSome
    have hd : (s.getitem k).2 = lookup (s.getitem k).1.data k := rfl
    rw [hd, DLFUCache.getitem_data]
  · show (s.getitem k).1.get_count = s.get_count + 1
    exact DLFUCache.getitem_get_count s k

/-- C1 (failing input, ADLFUCache): on `ADLFUCache(2)` after `set 1 7`,
key `1` has the stored value `7`, yet `get 1` does not return it: the
`ADLFUCache.__getitem__` body assigns the result to `ret` and falls off
the end without a `return` statement, so CPython returns `None` —
`some none` in the model (no *Miss* raise, but not the stored value
either).  The same trace on the plain `DLFUCache` does return the value. -/
theorem C1_adlfu_get_returns_none :
    lookup (ADLFUCache.run (ADLFUCache.mk0 2 2 : ADLFUCache ℤ ℤ) [.set 1 7]).base.data 1
        = some 7 ∧
    ((ADLFUCache.run (ADLFUCache.mk0 2 2 : ADLFUCache ℤ ℤ) [.set 1 7]).getitem 1).2
        = some none ∧
    ((DLFUCache.run (DLFUCache.mk0 2 2 (.fin 8) : DLFUCache ℤ ℤ) [.set 1 7]).getitem 1).2
        = some 7 := by
  with_unfolding_all decide

/-- C6 (counterexample): `DLFUCache(1, 1, T=inf)`; `set 1; get 2; get 2`
fills the shadow with key `2` at score `2`; then `delete 1`.  The value is
dropped, but `del_count` stays `0` — `__delitem__` never increments it —
and key `1` does not land in the shadow partition: `_setmqueue` drops it
because its score `1` is below the shadow minimum `2`. -/
theorem C6_counterexample :
    (DLFUCache.run (DLFUCache.mk0 1 1 .inf : DLFUCache ℤ ℤ)
        [.set 1 11, .get 2, .get 2, .del 1]).del_count = 0 ∧
    1 ∉ (DLFUCache.run (DLFUCache.mk0 1 1 .inf : DLFUCache ℤ ℤ)
        [.set 1 11, .get 2, .get 2, .del 1]).mqueue.keys ∧
    lookup (DLFUCache.run (DLFUCache.mk0 1 1 .inf : DLFUCache ℤ ℤ)
        [.set 1 11, .get 2, .get 2, .del 1]).data 1 = none := by
  with_unfolding_all decide

/-- C3 (confirmed): a key sitting in the shadow partition (mqueue) and not
in the primary partition (cqueue) stays exactly there under any number of
`get(key)` calls — `__getitem__` only bumps the shadow score in place and
never moves a shadow key into the cqueue; only `__setitem__` promotes. -/
theorem C3_get_never_promotes_shadow (s : DLFUCache K V) (k : K) (n : ℕ)
    (hm : k ∈ s.mqueue.keys) (hc : k ∉ s.cqueue.keys) :
    k ∈ ((fun t => (DLFUCache.getitem t k).1)^[n] s).mqueue.keys ∧
    k ∉ ((fun t => (DLFUCache.getitem t k).1)^[n] s).cqueue.keys := by
  induction n generalizing s with
  | zero => exact ⟨hm, hc⟩
  | succ n ih =>
    rw [Function.iterate_succ_apply]
    obtain ⟨hm2, hc2⟩ := DLFUCache.getitem_shadow_step s k hm hc
    exact ih _ hm2 hc2

/-- Witness for C3: on `DLFUCache(1, 1, T=4)`, a miss on key `2` parks it
in the shadow partition, and three further gets of `2` leave it there. -/
theorem C3_witness :
    2 ∈ (DLFUCache.run (DLFUCache.mk0 1 1 (.fin 4) : DLFUCache ℤ ℤ) [.get 2]).mqueue.keys ∧
    2 ∉ (DLFUCache.run (DLFUCache.mk0 1 1 (.fin 4) : DLFUCache ℤ ℤ) [.get 2]).cqueue.keys ∧
    2 ∈ ((fun t => (DLFUCache.getitem t 2).1)^[3]
          (DLFUCache.run (DLFUCache.mk0 1 1 (.fin 4) : DLFUCache ℤ ℤ) [.get 2])).mqueue.keys := by
  refine ⟨by with_unfolding_all decide, by with_unfolding_all decide, ?_⟩
  exact (C3_get_never_promotes_shadow _ 2 3 (by with_unfolding_all decide)
    (by with_unfolding_all decide)).1

/-- C10 (confirmed): overwriting the value of a key that is cached (in the
cqueue, not in the mqueue) only rewrites the stored value and bumps
`set_count`; the queues, `C`, the moment accumulators and the get/hit
statistics are all untouched, and no other key's stored value changes. -/
theorem C10_set_cached_is_pure_overwrite (s : DLFUCache K V) (k : K) (v : V)
    (hm : k ∉ s.mqueue.keys) (hc : k ∈ s.cqueue.keys) :
    s.setitem k v = { s with set_count := s.set_count + 1, data := dataSet s.data k v } ∧
    lookup (dataSet s.data k v) k = some v ∧
    (∀ x : K, x ≠ k → lookup (dataSet s.data k v) x = lookup s.data x) := by
  refine ⟨?_, DLFUCache.lookup_dataSet_self _ _ _,
    fun x hx => DLFUCache.lookup_dataSet_ne _ _ _ _ hx⟩
  simp only [DLFUCache.setitem]
  rw [if_neg hm, if_neg (not_not_intro hc), if_pos hc]

/-- Witness for C10: a concrete cached key. -/
theorem C10_witness :
    3 ∉ (DLFUCache.run (DLFUCache.mk0 2 2 (.fin 4) : DLFUCache ℤ ℤ) [.set 3 30]).mqueue.keys ∧
    3 ∈ (DLFUCache.run (DLFUCache.mk0 2 2 (.fin 4) : DLFUCache ℤ ℤ) [.set 3 30]).cqueue.keys ∧
    (DLFUCache.run (DLFUCache.mk0 2 2 (.fin 4) : DLFUCache ℤ ℤ) [.set 3 30]).setitem 3 31 =
      { DLFUCache.run (DLFUCache.mk0 2 2 (.fin 4) : DLFUCache ℤ ℤ) [.set 3 30] with
        set_count :=
          (DLFUCache.run (DLFUCache.mk0 2 2 (.fin 4) : DLFUCache ℤ ℤ) [.set 3 30]).set_count + 1,
        data :=
          dataSet (DLFUCache.run (DLFUCache.mk0 2 2 (.fin 4) : DLFUCache ℤ ℤ)
            [.set 3 30]).data 3 31 } := by
  refine ⟨?hm, ?hc, ?_⟩
  case hm => with_unfolding_all decide
  case hc => with_unfolding_all decide
  exact (C10_set_cached_is_pure_overwrite _ 3 31 (by with_unfolding_all decide)
    (by with_unfolding_all decide)).1

/-- C6 (amended): deleting a cached key removes its value and pops it out
of the cqueue, but `del_count` is *not* incremented — `__delitem__` never
touches it — and the key reaches the shadow partition only conditionally:
it lands in the mqueue iff there is shadow space or its (pre-decayed) score
is at least the shadow minimum (`_setmqueue` drops it otherwise). -/
theorem C6_delete_moves_toward_shadow (s : DLFUCache K V) (k : K)
    (hc : k ∈ s.cqueue.keys) (hm : k ∉ s.mqueue.keys)
    (hd : (s.data.map Prod.fst).Nodup)
    (hmsize : 0 ≤ s.msize) (hmlen : (s.mqueue.len : ℤ) ≤ s.msize) :
    ∃ s2, s.delitem k = some s2 ∧
      s2.del_count = s.del_count ∧
      lookup s2.data k = none ∧
      (k ∈ s2.mqueue.keys ↔
        ((s.mqueue.len : ℤ) < s.msize ∨
          s.mqueueMinLe (if s.T.truthy then (s.cqueue.popitem k).2 else 0) = true)) := by
  refine ⟨_, by simp only [DLFUCache.delitem]; rw [if_pos hc], ?_, ?_, ?_⟩
  · show (DLFUCache.movcqueue s k).del_count = s.del_count
    exact DLFUCache.movcqueue_del_count s k
  · show lookup (dataPop (DLFUCache.movcqueue s k).data k) k = none
    rw [DLFUCache.movcqueue_data]
    exact DLFUCache.lookup_dataPop_self s.data k hd
  · show k ∈ (DLFUCache.movcqueue s k).mqueue.keys ↔ _
    simp only [DLFUCache.movcqueue]
    exact DLFUCache.setmqueue_mem_iff
      { s with cqueue := (s.cqueue.popitem k).1,
               count_sum := s.count_sum - (s.cqueue.popitem k).2,
               count_sum2 := s.count_sum2 - (s.cqueue.popitem k).2 * (s.cqueue.popitem k).2 }
      k (s.cqueue.popitem k).2 hm hmsize hmlen

/-- Witness for C6 (amended): deleting key `1` from a `DLFUCache(2, 2, T=4)`
that caches it. -/
theorem C6_delete_witness :
    ∃ s2, (DLFUCache.run (DLFUCache.mk0 2 2 (.fin 4) : DLFUCache ℤ ℤ) [.set 1 11]).delitem 1
        = some s2 ∧
      s2.del_count
        = (DLFUCache.run (DLFUCache.mk0 2 2 (.fin 4) : DLFUCache ℤ ℤ) [.set 1 11]).del_count ∧
      lookup s2.data 1 = none ∧
      (1 ∈ s2.mqueue.keys ↔
        (((DLFUCache.run (DLFUCache.mk0 2 2 (.fin 4) : DLFUCache ℤ ℤ)
            [.set 1 11]).mqueue.len : ℤ)
            < (DLFUCache.run (DLFUCache.mk0 2 2 (.fin 4) : DLFUCache ℤ ℤ) [.set 1 11]).msize ∨
          (DLFUCache.run (DLFUCache.mk0 2 2 (.fin 4) : DLFUCache ℤ ℤ)
            [.set 1 11]).mqueueMinLe
            (if (DLFUCache.run (DLFUCache.mk0 2 2 (.fin 4) : DLFUCache ℤ ℤ)
                [.set 1 11]).T.truthy
             then ((DLFUCache.run (DLFUCache.mk0 2 2 (.fin 4) : DLFUCache ℤ ℤ)
                [.set 1 11]).cqueue.popitem 1).2
             else 0) = true)) :=
  C6_delete_moves_toward_shadow _ 1
    (by with_unfolding_all decide) (by with_unfolding_all decide)
    (by with_unfolding_all decide) (by with_unfolding_all decide)
    (by with_unfolding_all decide)

/-- C4 (counterexample): `ARCCache(2)`; `set A; set B; get A; set C`
(evicting `B` into the ghost list `b1`); then `set B` — a `b1` ghost hit.
`ARCCache.__setitem__` counts ghost hits in `mhit_count`, so after this
sequence `get_count = 1` but `hit_count + mhit_count = 2`, refuting
`hit_count + mhit_count ≤ get_count` for the family. -/
theorem C4_counterexample :
    (ARCCache.run (ARCCache.mk0 2 : ARCCache ℤ ℤ)
        [.set 1 11, .set 2 12, .get 1, .set 3 13, .set 2 22]).get_count = 1 ∧
    (ARCCache.run (ARCCache.mk0 2 : ARCCache ℤ ℤ)
        [.set 1 11, .set 2 12, .get 1, .set 3 13, .set 2 22]).hit_count = 1 ∧
    (ARCCache.run (ARCCache.mk0 2 : ARCCache ℤ ℤ)
        [.set 1 11, .set 2 12, .get 1, .set 3 13, .set 2 22]).mhit_count = 1 := by
  with_unfolding_all decide

/-- C4 (amended): after every sequence of get/set/delete (and clear)
operations, `hit_count ≤ get_count` holds for all three caches, and
`hit_count + mhit_count ≤ get_count` holds for `DLFUCache` and
`ADLFUCache`; for `ARCCache` it fails because `__setitem__` counts ghost
(`b1`/`b2`) hits in `mhit_count`, and the bound that does hold is
`hit_count + mhit_count ≤ get_count + set_count`. -/
theorem C4_stats_monotone :
    (∀ (size msize : ℤ) (T : Flt) (ops : List (Op K V)),
      (DLFUCache.run (DLFUCache.mk0 size msize T) ops).hit_count
          ≤ (DLFUCache.run (DLFUCache.mk0 size msize T) ops).get_count ∧
      (DLFUCache.run (DLFUCache.mk0 size msize T) ops).hit_count
          + (DLFUCache.run (DLFUCache.mk0 size msize T) ops).mhit_count
          ≤ (DLFUCache.run (DLFUCache.mk0 size msize T) ops).get_count) ∧
    (∀ (size msize : ℤ) (ops : List (Op K V)),
      (ADLFUCache.run (ADLFUCache.mk0 size msize) ops).base.hit_count
          ≤ (ADLFUCache.run (ADLFUCache.mk0 size msize) ops).base.get_count ∧
      (ADLFUCache.run (ADLFUCache.mk0 size msize) ops).base.hit_count
          + (ADLFUCache.run (ADLFUCache.mk0 size msize) ops).base.mhit_count
          ≤ (ADLFUCache.run (ADLFUCache.mk0 size msize) ops).base.get_count) ∧
    (∀ (size : ℤ) (ops : List (Op K V)),
      (ARCCache.run (ARCCache.mk0 size) ops).hit_count
          ≤ (ARCCache.run (ARCCache.mk0 size) ops).get_count ∧
      (ARCCache.run (ARCCache.mk0 size) ops).hit_count
          + (ARCCache.run (ARCCache.mk0 size) ops).mhit_count
          ≤ (ARCCache.run (ARCCache.mk0 size) ops).get_count
            + (ARCCache.run (ARCCache.mk0 size) ops).set_count) := by
  refine ⟨?_, ?_, ?_⟩
  · intro size msize T ops
    exact DLFUCache.run_stats _ ops (Nat.le_refl 0) (Nat.le_refl 0)
  · intro size msize ops
    exact ADLFUCache.run_stats_adlfu _ ops (Nat.le_refl 0) (Nat.le_refl 0)
  · intro size ops
    exact ARCCache.run_stats_arc _ ops (Nat.le_refl 0) (Nat.le_refl 0)

/-- C7 (counterexample): for `ADLFUCache`, `C ≥ 1` fails.  On
`ADLFUCache(2)` after `set A; get A; get A`, the PID controller's output
saturates at `1`, `_setT` jumps `T` to `42` and rescales
`C *= T_old/T_new`, leaving `C = 2051405/9492084 < 1`. -/
theorem C7_counterexample :
    (ADLFUCache.run (ADLFUCache.mk0 2 2 : ADLFUCache ℤ ℤ)
        [.set 1 7, .get 1, .get 1]).base.C < 1 := by
  with_unfolding_all decide

/-- C7 (amended): for every `DLFUCache` built with the documented
construction domain (`size ≥ 1` and `T ∈ [0, ∞]`), after every sequence of
operations (get, set, delete, clear) the scale factor satisfies `C ≥ 1`
and the multiplier satisfies `M ≥ 1` (`M = inf` in the LRU regime).  The
`ADLFUCache` half of the claim is false: its `_setT` rescaling can push
`C` below `1` (see the counterexample); its `M` build is not claimed
here. -/
theorem C7_scale_factor_bounds (size msize : ℤ) (T : Flt) (ops : List (Op K V))
    (hsize : 1 ≤ size)
    (hT : T = .fin 0 ∨ T = .inf ∨ ∃ q : ℚ, T = .fin q ∧ 0 < q) :
    1 ≤ (DLFUCache.run (DLFUCache.mk0 size msize T) ops).C ∧
    (DLFUCache.run (DLFUCache.mk0 size msize T) ops).M.oneLe := by
  have hsq : (1 : ℚ) ≤ (size : ℚ) := by exact_mod_cast hsize
  have hTeq : (DLFUCache.mk0 size msize T : DLFUCache K V).T = T := rfl
  have hCeq : (DLFUCache.mk0 size msize T : DLFUCache K V).C = 1 := rfl
  have hdiv : ∀ q : ℚ, 0 < q → 1 ≤ (q * size + 1) / (q * size) := by
    intro q hq
    have hqs : 0 < q * (size : ℚ) := mul_pos hq (lt_of_lt_of_le zero_lt_one hsq)
    rw [one_le_div hqs]
    linarith
  have hM2 : (DLFUCache.mk0 size msize T : DLFUCache K V).T.truthy = true →
      ∃ m : ℚ, (DLFUCache.mk0 size msize T : DLFUCache K V).M = .fin m ∧ 1 ≤ m := by
    intro htr
    rw [hTeq] at htr
    rcases hT with h0 | hinf | ⟨q, hq, hqpos⟩
    · rw [h0] at htr
      simp [Flt.truthy] at htr
    · refine ⟨1, ?_, le_refl 1⟩
      rw [hinf]
      rfl
    · refine ⟨(q * size + 1) / (q * size), ?_, hdiv q hqpos⟩
      rw [hq]
      show (DLFUCache.clear _ : DLFUCache K V).M = _
      simp [DLFUCache.mk0, DLFUCache.clear, DLFUCache.reset_stats, ne_of_gt hqpos]
  obtain ⟨rT, rM, rC⟩ := DLFUCache.run_CM (DLFUCache.mk0 size msize T) ops
    (by rw [hCeq]) hM2
  refine ⟨rC, ?_⟩
  rw [rM]
  rcases hT with h0 | hinf | ⟨q, hq, hqpos⟩
  · rw [h0]
    show ((DLFUCache.mk0 size msize (Flt.fin 0) : DLFUCache K V)).M.oneLe
    have : (DLFUCache.mk0 size msize (Flt.fin 0) : DLFUCache K V).M = .inf := by
      simp [DLFUCache.mk0, DLFUCache.clear, DLFUCache.reset_stats]
    rw [this]
    trivial
  · rw [hinf]
    show Flt.oneLe (Flt.fin 1)
    show (1 : ℚ) ≤ 1
    exact le_refl 1
  · rw [hq]
    have : (DLFUCache.mk0 size msize (Flt.fin q) : DLFUCache K V).M
        = .fin ((q * size + 1) / (q * size)) := by
      simp [DLFUCache.mk0, DLFUCache.clear, DLFUCache.reset_stats, ne_of_gt hqpos]
    rw [this]
    exact hdiv q hqpos

/-- Witness for C7 (amended): a `DLFUCache(2, 2, T=4)` after a set and a
get. -/
theorem C7_witness :
    1 ≤ (DLFUCache.run (DLFUCache.mk0 2 2 (.fin 4) : DLFUCache ℤ ℤ) [.set 1 5, .get 1]).C ∧
    (DLFUCache.run (DLFUCache.mk0 2 2 (.fin 4) : DLFUCache ℤ ℤ) [.set 1 5, .get 1]).M.oneLe :=
  C7_scale_factor_bounds 2 2 (.fin 4) [.set 1 5, .get 1] (by norm_num)
    (Or.inr (Or.inr ⟨4, rfl, by norm_num⟩))

/-- C8: on every well-formed `DLFUCache` state (positive capacity, cqueue
within capacity, the key not in both queues at once, no duplicate shadow
keys, and zero shadow score in the LRU regime where `T` is falsy),
`set(k, v); set(k, v)` leaves the cache identical to the state after a
single `set(k, v)` except that `set_count` is incremented twice instead of
once: whichever branch the first set takes, it leaves `k` cached with
value `v` (or rejected with the state otherwise untouched), so the second
set reduces to the `set_count` bump. -/
theorem C8_set_idempotent (s : DLFUCache K V) (k : K) (v : V)
    (hsize : 1 ≤ s.size) (hclen : (s.cqueue.len : ℤ) ≤ s.size)
    (hdisj : ¬(k ∈ s.cqueue.keys ∧ k ∈ s.mqueue.keys))
    (hnd : s.mqueue.keys.Nodup)
    (hlru : s.T.truthy = false → s.mqueue.get k = 0) :
    (s.setitem k v).setitem k v =
      { s.setitem k v with set_count := (s.setitem k v).set_count + 1 } := by
  by_cases hm : k ∈ s.mqueue.keys
  · have hc : k ∉ s.cqueue.keys := fun hck => hdisj ⟨hck, hm⟩
    by_cases hcond : s.cqueue_min ≤ s.mqueue.get k
    · have hAcc := DLFUCache.movmqueue_accept_facts
        ({ s with set_count := s.set_count + 1 } : DLFUCache K V) k
        hcond hm hc hnd hsize hclen hlru
      have hs' : s.setitem k v =
          { DLFUCache.movmqueue ({ s with set_count := s.set_count + 1 } :
              DLFUCache K V) k with
            data := dataSet (DLFUCache.movmqueue
              ({ s with set_count := s.set_count + 1 } : DLFUCache K V) k).data k v } := by
        simp only [DLFUCache.setitem]
        rw [if_pos (show k ∈ ({ s with set_count := s.set_count + 1 } :
              DLFUCache K V).mqueue.keys from hm),
            if_pos hAcc.1]
      rw [hs']
      refine DLFUCache.setitem_second_cached _ k v ?_ ?_ ?_
      · exact hAcc.2
      · exact hAcc.1
      · exact DLFUCache.lookup_dataSet_self _ _ _
    · have hs' : s.setitem k v = { s with set_count := s.set_count + 1 } := by
        simp only [DLFUCache.setitem]
        rw [if_pos (show k ∈ ({ s with set_count := s.set_count + 1 } :
              DLFUCache K V).mqueue.keys from hm),
            DLFUCache.movmqueue_eq_reject _ k
              (show ¬(({ s with set_count := s.set_count + 1 } :
                DLFUCache K V).cqueue_min ≤ ({ s with set_count := s.set_count + 1 } :
                DLFUCache K V).mqueue.get k) from hcond),
            if_neg (show ¬k ∈ ({ s with set_count := s.set_count + 1 } :
              DLFUCache K V).cqueue.keys from hc)]
      rw [hs']
      exact DLFUCache.setitem_second_shadow_reject
        ({ s with set_count := s.set_count + 1 } : DLFUCache K V) k v hm hc hcond
  · by_cases hc : k ∈ s.cqueue.keys
    · have hs' : s.setitem k v =
          { ({ s with set_count := s.set_count + 1 } : DLFUCache K V) with
            data := dataSet ({ s with set_count := s.set_count + 1 } :
              DLFUCache K V).data k v } := by
        simp only [DLFUCache.setitem]
        rw [if_neg (show ¬k ∈ ({ s with set_count := s.set_count + 1 } :
              DLFUCache K V).mqueue.keys from hm),
            if_neg (not_not_intro (show k ∈ ({ s with set_count := s.set_count + 1 } :
              DLFUCache K V).cqueue.keys from hc)),
            if_pos (show k ∈ ({ s with set_count := s.set_count + 1 } :
              DLFUCache K V).cqueue.keys from hc)]
      rw [hs']
      refine DLFUCache.setitem_second_cached _ k v ?_ ?_ ?_
      · exact hm
      · exact hc
      · exact DLFUCache.lookup_dataSet_self _ _ _
    · rcases DLFUCache.setcqueue_fresh_cases
          ({ s with set_count := s.set_count + 1 } : DLFUCache K V) k
          (({ s with set_count := s.set_count + 1 } : DLFUCache K V).C)
          hc hm hsize hclen with ⟨h1, h2⟩ | ⟨heq, hsp, hle⟩
      · have hs' : s.setitem k v =
            { DLFUCache.setcqueue ({ s with set_count := s.set_count + 1 } :
                DLFUCache K V) k
                (({ s with set_count := s.set_count + 1 } : DLFUCache K V).C) with
              data := dataSet (DLFUCache.setcqueue
                ({ s with set_count := s.set_count + 1 } : DLFUCache K V) k
                (({ s with set_count := s.set_count + 1 } :
                  DLFUCache K V).C)).data k v } := by
          simp only [DLFUCache.setitem]
          rw [if_neg (show ¬k ∈ ({ s with set_count := s.set_count + 1 } :
                DLFUCache K V).mqueue.keys from hm),
              if_pos (show ¬k ∈ ({ s with set_count := s.set_count + 1 } :
                DLFUCache K V).cqueue.keys from hc),
              if_pos h1]
        rw [hs']
        refine DLFUCache.setitem_second_cached _ k v ?_ ?_ ?_
        · exact h2
        · exact h1
        · exact DLFUCache.lookup_dataSet_self _ _ _
      · have hs' : s.setitem k v = { s with set_count := s.set_count + 1 } := by
          simp only [DLFUCache.setitem]
          rw [if_neg (show ¬k ∈ ({ s with set_count := s.set_count + 1 } :
                DLFUCache K V).mqueue.keys from hm),
              if_pos (show ¬k ∈ ({ s with set_count := s.set_count + 1 } :
                DLFUCache K V).cqueue.keys from hc),
              heq,
              if_neg (show ¬k ∈ ({ s with set_count := s.set_count + 1 } :
                DLFUCache K V).cqueue.keys from hc)]
        rw [hs']
        exact DLFUCache.setitem_second_fresh_reject
          ({ s with set_count := s.set_count + 1 } : DLFUCache K V) k v hm hc hsp hle

/-- Witness for C8: a fresh `DLFUCache(2, 2, T=4)` and the key `1`. -/
theorem C8_witness :
    1 ≤ (DLFUCache.mk0 2 2 (.fin 4) : DLFUCache ℤ ℤ).size ∧
    (((DLFUCache.mk0 2 2 (.fin 4) : DLFUCache ℤ ℤ).cqueue.len : ℤ) ≤
      (DLFUCache.mk0 2 2 (.fin 4) : DLFUCache ℤ ℤ).size) ∧
    ¬((1 : ℤ) ∈ (DLFUCache.mk0 2 2 (.fin 4) : DLFUCache ℤ ℤ).cqueue.keys ∧
      (1 : ℤ) ∈ (DLFUCache.mk0 2 2 (.fin 4) : DLFUCache ℤ ℤ).mqueue.keys) ∧
    ((DLFUCache.mk0 2 2 (.fin 4) : DLFUCache ℤ ℤ).setitem 1 7).setitem 1 7 =
      { (DLFUCache.mk0 2 2 (.fin 4) : DLFUCache ℤ ℤ).setitem 1 7 with
        set_count :=
          ((DLFUCache.mk0 2 2 (.fin 4) : DLFUCache ℤ ℤ).setitem 1 7).set_count + 1 } :=
  ⟨by with_unfolding_all decide, by with_unfolding_all decide,
   by with_unfolding_all decide,
   C8_set_idempotent _ 1 7 (by with_unfolding_all decide)
     (by with_unfolding_all decide) (by with_unfolding_all decide)
     (by with_unfolding_all decide) (by with_unfolding_all decide)⟩

end Claims

end DLFUSpec
